import Mathlib

/-!
# mii: a verification development

Shallow embedding of parts of the `mii` module index (ComputeCanada/mii):

* `src/util.c`     : `mii_levenshtein_distance`
* `src/modtable.h` : `MII_MODTABLE_DISTANCE_THRESHOLD`, the module types
* `src/mii.c`      : `mii_build`, `mii_sync`, `mii_search_exact/fuzzy/info`
* `src/analysis.c` : `mii_analysis_run`, `_mii_analysis_lmod`, `_mii_analysis_tcl`

Conventions of the embedding.

* A C string is the list of its bytes before the terminating NUL; a byte is a `Nat`.
* An `int` has 32 bits and a `size_t` 64. A value of type `int` is a natural number
  here, and the places where the source can leave the range of `int` are checked:
  `mii_levenshtein_distance` is `none`, C defining no result, when
  `(a_len + 1) * (b_len + 1)` overflows. Once that product is at most `INT_MAX`, every
  index is below it and every value stored in the matrix is at most `a_len + b_len + 1`
  (`osaRec_le_add`), so nothing wraps in the loops.
* `malloc` is a parameter: the function is `none` when `malloc` gives `NULL`, which the
  source does not test before it writes through the pointer.
* Every read and write of the matrix and of the two strings is bounds-checked: the
  embedded function returns `none` as soon as an access falls outside its object.
-/

namespace Mii

/-! ## `src/util.c` -/

/-- A C string: its bytes, without the terminating NUL. -/
abbrev CString := List Nat

/-- The bytes of a string literal of ASCII characters. -/
def cstr (s : String) : CString := s.toList.map Char.toNat

/-- The function `tolower` of the C library in the "C" locale (the program never calls
`setlocale`): `'A'..'Z'` (65..90) go to `'a'..'z'`, every other value is unchanged. -/
def tolower (c : Nat) : Nat := if 65 ≤ c ∧ c ≤ 90 then c + 32 else c

/-- Modelled from the spec: the macro `mii_min` of `util.h`, which is not among the
sources; the smaller of its two arguments. -/
def mii_min (x y : Nat) : Nat := if x < y then x else y

/-- The statement `mat[k] = v`; `none` when `k` is outside the matrix. -/
def writeCell (mat : List Nat) (k v : Nat) : Option (List Nat) :=
  if k < mat.length then some (mat.set k v) else none

/-- The iterations `i, i+1, ..` of a loop body, `count` of them. -/
def iterate {σ : Type} (body : Nat → σ → Option σ) : Nat → Nat → σ → Option σ
  | 0, _, s => some s
  | count + 1, i, s => (body i s).bind (iterate body count (i + 1))

/-- The loop `for (int i = lo; i <= hi; ++i) body`. -/
def forLoop {σ : Type} (lo hi : Nat) (body : Nat → σ → Option σ) (s : σ) : Option σ :=
  iterate body (hi + 1 - lo) lo s

/-- The body of the inner loop of `mii_levenshtein_distance` (util.c lines 61-70), at
row `i` and column `j`. -/
def cellStep (a b : CString) (b_len i j : Nat) (mat : List Nat) : Option (List Nat) := do
  let deletion := (← mat[(i - 1) * (b_len + 1) + j]?) + 1
  let insertion := (← mat[i * (b_len + 1) + j - 1]?) + 1
  let ai ← a[i - 1]?
  let bj ← b[j - 1]?
  let substitution :=
    (← mat[(i - 1) * (b_len + 1) + j - 1]?) + (if tolower ai ≠ tolower bj then 1 else 0)
  let mat ← writeCell mat (i * (b_len + 1) + j) (mii_min deletion (mii_min insertion substitution))
  if i > 1 ∧ j > 1 then
    let bj2 ← b[j - 2]?
    if tolower ai = tolower bj2 then
      let ai2 ← a[i - 2]?
      if tolower ai2 = tolower bj then
        let cur ← mat[i * (b_len + 1) + j]?
        let diag ← mat[(i - 2) * (b_len + 1) + j - 2]?
        writeCell mat (i * (b_len + 1) + j) (mii_min cur (diag + 1))
      else some mat
    else some mat
  else some mat

/-- The largest value of an `int`. -/
def INT_MAX : Nat := 2147483647

/-- The size in bytes of an `int`: the `sizeof *mat` of the source. -/
def sizeof_int : Nat := 4

/-- The initialisation `int n = strlen(s)`; `none` when the length does not fit in an
`int` (the conversion is then implementation-defined and is not followed here). -/
def strlen_int (s : CString) : Option Nat :=
  if s.length ≤ INT_MAX then some s.length else none

/-- The sum of two non-negative `int`; `none` when it overflows (undefined in C). -/
def int_add (x y : Nat) : Option Nat :=
  if x + y ≤ INT_MAX then some (x + y) else none

/-- The product of two non-negative `int`; `none` when it overflows (undefined in C). -/
def int_mul (x y : Nat) : Option Nat :=
  if x * y ≤ INT_MAX then some (x * y) else none

/-- The function `mii_levenshtein_distance` of util.c, on a machine whose `malloc`
grants a request of `n` bytes exactly when `malloc n` is `true`. The result is `none`
when C defines no result for the call: the size of the table overflows `int`, `malloc`
returns `NULL` (the source passes it to `memset` untested), or an access leaves its
object; it is `none` too for a string of more than `INT_MAX` bytes (see `strlen_int`). -/
def mii_levenshtein_distance_on (malloc : Nat → Bool) (a b : CString) : Option Nat := do
  let a_len ← strlen_int a
  let b_len ← strlen_int b
  let mat_num ← int_mul (← int_add a_len 1) (← int_add b_len 1)
  -- malloc + memset
  let mat ← if malloc (mat_num * sizeof_int) then some (List.replicate mat_num 0) else none
  let mat ← forLoop 1 a_len (fun i m => writeCell m ((b_len + 1) * i) i) mat
  let mat ← forLoop 1 b_len (fun i m => writeCell m i i) mat
  let mat ← forLoop 1 a_len (fun i m => forLoop 1 b_len (fun j m => cellStep a b b_len i j m) m) mat
  mat[mat_num - 1]?

/-- The function `mii_levenshtein_distance` of util.c on a machine where `malloc` does
not fail. -/
def mii_levenshtein_distance (a b : CString) : Option Nat :=
  mii_levenshtein_distance_on (fun _ => true) a b

/-- The table of a run on `a` and `b` fits: its number of cells is at most `INT_MAX`
and `malloc` grants its bytes. -/
def TableFits (malloc : Nat → Bool) (a b : CString) : Prop :=
  (a.length + 1) * (b.length + 1) ≤ INT_MAX ∧
    malloc ((a.length + 1) * (b.length + 1) * sizeof_int) = true

/-- The optimal-string-alignment recurrence on prefix lengths, over the lowercased
bytes: `osaRec a b i j` is the value `d(i, j)` for the first `i` bytes of `a` and the
first `j` bytes of `b`. -/
def osaRec (a b : CString) : Nat → Nat → Nat
  | 0, j => j
  | i + 1, 0 => i + 1
  | i + 1, j + 1 =>
    let best := min (osaRec a b i (j + 1) + 1)
      (min (osaRec a b (i + 1) j + 1)
        (osaRec a b i j + if tolower (a.getD i 0) ≠ tolower (b.getD j 0) then 1 else 0))
    if 0 < i ∧ 0 < j ∧ tolower (a.getD i 0) = tolower (b.getD (j - 1) 0)
        ∧ tolower (a.getD (i - 1) 0) = tolower (b.getD j 0) then
      min best (osaRec a b (i - 1) (j - 1) + 1)
    else best
termination_by i j => i + j
decreasing_by all_goals simp_wf; all_goals omega

/-- The matrix `mat` of a run on `a` and `b` has the allocated size and holds the value
of the recurrence in every cell `(p, q)` of the table that `done` marks. -/
def MatInv (a b : CString) (done : Nat → Nat → Prop) (mat : List Nat) : Prop :=
  mat.length = (a.length + 1) * (b.length + 1) ∧
    ∀ p q, p ≤ a.length → q ≤ b.length → done p q →
      mat[p * (b.length + 1) + q]? = some (osaRec a b p q)


/-! ### The matrix with its accesses recorded

The same function once more, over a memory that knows which cells have been written, and
by what, and that records every read of the matrix. -/

/-- A cell of the matrix that has been written: its value, and whether an assignment
`mat[..] = ..` of the function has written it (`true`) or only the `memset` (`false`). -/
structure Cell where
  value : Nat
  assigned : Bool
  deriving DecidableEq, Repr

/-- The matrix of a run: a cell is `none` from `malloc` until it is written for the first
time; `reads` lists the reads made so far, in order, each with the index read and whether
an assignment had written that cell. -/
structure Traced where
  cells : List (Option Cell)
  reads : List (Nat × Bool)

/-- The expression `mat[k]`: `none` when `k` is outside the matrix or the cell has never
been written, else the value, the read being recorded. -/
def Traced.read (t : Traced) (k : Nat) : Option (Nat × Traced) :=
  match t.cells[k]? with
  | some (some c) => some (c.value, { t with reads := t.reads ++ [(k, c.assigned)] })
  | _ => none

/-- The statement `mat[k] = v`; `none` when `k` is outside the matrix. -/
def Traced.write (t : Traced) (k v : Nat) : Option Traced :=
  if k < t.cells.length then some { t with cells := t.cells.set k (some ⟨v, true⟩) } else none

/-- The body of the inner loop of `mii_levenshtein_distance` (util.c lines 61-70), at
row `i` and column `j`, on the recorded matrix. -/
def cellStepTraced (a b : CString) (b_len i j : Nat) (t : Traced) : Option Traced := do
  let r1 ← t.read ((i - 1) * (b_len + 1) + j)
  let deletion := r1.1 + 1
  let r2 ← r1.2.read (i * (b_len + 1) + j - 1)
  let insertion := r2.1 + 1
  let ai ← a[i - 1]?
  let bj ← b[j - 1]?
  let r3 ← r2.2.read ((i - 1) * (b_len + 1) + j - 1)
  let substitution := r3.1 + (if tolower ai ≠ tolower bj then 1 else 0)
  let t ← r3.2.write (i * (b_len + 1) + j) (mii_min deletion (mii_min insertion substitution))
  if i > 1 ∧ j > 1 then
    let bj2 ← b[j - 2]?
    if tolower ai = tolower bj2 then
      let ai2 ← a[i - 2]?
      if tolower ai2 = tolower bj then
        let cur ← t.read (i * (b_len + 1) + j)
        let diag ← cur.2.read ((i - 2) * (b_len + 1) + j - 2)
        diag.2.write (i * (b_len + 1) + j) (mii_min cur.1 (diag.1 + 1))
      else some t
    else some t
  else some t

/-- The function `mii_levenshtein_distance` of util.c on the recorded matrix, on a
machine whose `malloc` grants `n` bytes exactly when `malloc n` is `true`: its result and
the reads of the matrix it has made, in order; `none` as for
`mii_levenshtein_distance_on`. -/
def mii_levenshtein_distance_traced (malloc : Nat → Bool) (a b : CString) :
    Option (Nat × List (Nat × Bool)) := do
  let a_len ← strlen_int a
  let b_len ← strlen_int b
  let mat_num ← int_mul (← int_add a_len 1) (← int_add b_len 1)
  -- malloc
  let t ← if malloc (mat_num * sizeof_int) then
    some (Traced.mk (List.replicate mat_num none) []) else none
  -- memset
  let t : Traced := { t with cells := List.replicate mat_num (some ⟨0, false⟩) }
  let t ← forLoop 1 a_len (fun i t => t.write ((b_len + 1) * i) i) t
  let t ← forLoop 1 b_len (fun i t => t.write i i) t
  let t ← forLoop 1 a_len
    (fun i t => forLoop 1 b_len (fun j t => cellStepTraced a b b_len i j t) t) t
  let r ← t.read (mat_num - 1)
  pure (r.1, r.2.reads)

/-- The recurrence of the optimal string alignment, as the specification words it, for
a table `d` over the strings `x` and `y` (`x_i` is `x[i - 1]`): `d(i, 0) = i`,
`d(0, j) = j` and, for `i, j ≥ 1`, `d(i, j)` is the least of `d(i-1, j) + 1`,
`d(i, j-1) + 1`, `d(i-1, j-1) + [x_i ≠ y_j]` and, when `i > 1`, `j > 1`, `x_i = y_(j-1)`
and `x_(i-1) = y_j`, of `d(i-2, j-2) + 1`. -/
def OsaRecurrence (x y : CString) (d : Nat → Nat → Nat) : Prop :=
  (∀ i, i ≤ x.length → d i 0 = i) ∧ (∀ j, j ≤ y.length → d 0 j = j) ∧
  ∀ i j, 1 ≤ i → i ≤ x.length → 1 ≤ j → j ≤ y.length →
    d i j =
      if 1 < i ∧ 1 < j ∧ x.getD (i - 1) 0 = y.getD (j - 2) 0 ∧
          x.getD (i - 2) 0 = y.getD (j - 1) 0 then
        min (min (d (i - 1) j + 1) (min (d i (j - 1) + 1)
          (d (i - 1) (j - 1) + if x.getD (i - 1) 0 ≠ y.getD (j - 1) 0 then 1 else 0)))
          (d (i - 2) (j - 2) + 1)
      else
        min (d (i - 1) j + 1) (min (d i (j - 1) + 1)
          (d (i - 1) (j - 1) + if x.getD (i - 1) 0 ≠ y.getD (j - 1) 0 then 1 else 0))

/-- The reads of a run on `a` and `b` are all inside the `(|a|+1) x (|b|+1)` table, and all
of a cell that has been written before: by an assignment of the function or, for the
cell `(0, 0)` alone, by the `memset`. -/
def ReadsInTable (a b : CString) (reads : List (Nat × Bool)) : Prop :=
  ∀ r ∈ reads, ∃ p q, p ≤ a.length ∧ q ≤ b.length ∧ r.1 = p * (b.length + 1) + q ∧
    (r.2 = true ∨ (p = 0 ∧ q = 0))

/-- The recorded matrix `t` of a run on `a` and `b` has the allocated size, holds the
value of the recurrence in every cell that `done` marks, written by an assignment unless
the cell is `(0, 0)`, and its reads so far are as `ReadsInTable` says. -/
def TracedInv (a b : CString) (done : Nat → Nat → Prop) (t : Traced) : Prop :=
  t.cells.length = (a.length + 1) * (b.length + 1) ∧
    (∀ p q, p ≤ a.length → q ≤ b.length → done p q →
      ∃ f, t.cells[p * (b.length + 1) + q]? = some (some ⟨osaRec a b p q, f⟩) ∧
        (f = true ∨ (p = 0 ∧ q = 0))) ∧
    ReadsInTable a b t.reads

/-! ## `src/modtable.h` -/

/-- The constant `MII_MODTABLE_DISTANCE_THRESHOLD`. -/
def MII_MODTABLE_DISTANCE_THRESHOLD : Nat := 4

/-- The constant `MII_MODTABLE_MODTYPE_LMOD`. -/
def MII_MODTABLE_MODTYPE_LMOD : Int := 0

/-- The constant `MII_MODTABLE_MODTYPE_TCL`. -/
def MII_MODTABLE_MODTYPE_TCL : Int := 1

/-! ## Edit distances, as the specification words them -/

/-- One edit of a string: the insertion, the deletion or the substitution of a single
byte, or the transposition of two adjacent bytes, anywhere in the string. -/
inductive EditStep : CString → CString → Prop
  | insert (u v : CString) (c : Nat) : EditStep (u ++ v) (u ++ c :: v)
  | delete (u v : CString) (c : Nat) : EditStep (u ++ c :: v) (u ++ v)
  | substitute (u v : CString) (c d : Nat) : EditStep (u ++ c :: v) (u ++ d :: v)
  | transpose (u v : CString) (c d : Nat) : EditStep (u ++ c :: d :: v) (u ++ d :: c :: v)

/-- `EditSeq n s t`: some `n` successive edits turn `s` into `t`; an edit may touch what
an earlier edit produced. -/
inductive EditSeq : Nat → CString → CString → Prop
  | done (s : CString) : EditSeq 0 s s
  | step {n : Nat} {s t u : CString} : EditStep s t → EditSeq n t u → EditSeq (n + 1) s u

/-- `n` is the unrestricted Damerau-Levenshtein distance from `s` to `t`: the least number
of edits that turn `s` into `t`. -/
def IsEditDistance (s t : CString) (n : Nat) : Prop :=
  EditSeq n s t ∧ ∀ m, EditSeq m s t → n ≤ m

/-- `Alignment s t n`: an edit script of cost `n` from `s` to `t` that goes through both
strings once, left to right, so that no byte is edited twice: each byte of `s` is deleted,
kept, substituted or exchanged with its neighbour, and each byte of `t` is inserted or
comes from one of those. -/
inductive Alignment : CString → CString → Nat → Prop
  | nil : Alignment [] [] 0
  | delete {u v : CString} {n : Nat} (c : Nat) :
      Alignment u v n → Alignment (u ++ [c]) v (n + 1)
  | insert {u v : CString} {n : Nat} (c : Nat) :
      Alignment u v n → Alignment u (v ++ [c]) (n + 1)
  | keep {u v : CString} {n : Nat} (c : Nat) :
      Alignment u v n → Alignment (u ++ [c]) (v ++ [c]) n
  | substitute {u v : CString} {n : Nat} (c d : Nat) :
      Alignment u v n → Alignment (u ++ [c]) (v ++ [d]) (n + 1)
  | transpose {u v : CString} {n : Nat} (c d : Nat) :
      Alignment u v n → Alignment (u ++ [c, d]) (v ++ [d, c]) (n + 1)

/-- `n` is the optimal-string-alignment distance from `s` to `t`: the least cost of an
alignment of `s` with `t`. -/
def IsAlignmentDistance (s t : CString) (n : Nat) : Prop :=
  Alignment s t n ∧ ∀ m, Alignment s t m → n ≤ m

/-! ## `src/mii.c`

The functions of `mii.c` call the index operations of `modtable.c` and the set-up and
clean-up of `analysis.c`. Those are parameters of the embedding (`Env`): each one is a
function of the state of the machine, `W` (memory, the globals `_mii_modulepath` and
`_mii_datafile`, the file system), and of the address (`Ptr`) of the index it is given;
it returns its status and the new state. The local variable `index` of a function is
named by its address, a parameter of the embedded function. Every call is recorded, in
order, in a trace. The diagnostics (`mii_error`, `mii_warn`, `mii_info`) are not part of
the embedding. -/

/-- The operations that `mii.c` calls. -/
inductive OpName
  | mii_modtable_init
  | mii_modtable_free
  | mii_analysis_init
  | mii_analysis_free
  | mii_modtable_gen
  | mii_modtable_import
  | mii_modtable_preanalysis
  | mii_modtable_analysis
  | mii_modtable_export
  | mii_modtable_search_exact
  | mii_modtable_search_similar
  | mii_modtable_search_info
  deriving DecidableEq, Repr

/-- One call: the operation, the index it was given (if it takes one), the status it
returned (0 for a `void` function) and the value it stored through an `int*` argument
(the `count` of `mii_modtable_analysis`). -/
structure Event (Ptr : Type) where
  op : OpName
  index : Option Ptr
  status : Int
  out : Option Int
  deriving DecidableEq, Repr

/-- The state of a run: the machine and the calls made so far. -/
structure St (Ptr W : Type) where
  world : W
  trace : List (Event Ptr)

/-- The operations of `modtable.c` and `analysis.c` used by `mii.c`. -/
structure Env (Ptr W : Type) where
  mii_modtable_init : Ptr → W → W
  mii_modtable_free : Ptr → W → W
  mii_analysis_init : W → Int × W
  mii_analysis_free : W → W
  mii_modtable_gen : Ptr → W → Int × W
  mii_modtable_import : Ptr → W → Int × W
  mii_modtable_preanalysis : Ptr → W → Int × W
  /-- Returns the status and the value stored in `*count`. -/
  mii_modtable_analysis : Ptr → W → (Int × Int) × W
  mii_modtable_export : Ptr → W → Int × W
  mii_modtable_search_exact : Ptr → CString → Ptr → W → Int × W
  mii_modtable_search_similar : Ptr → CString → Ptr → W → Int × W
  mii_modtable_search_info : Ptr → CString → Ptr → W → Int × W

section MiiC

variable {Ptr W : Type}

/-- A call of a `void` operation. -/
def St.callVoid (s : St Ptr W) (op : OpName) (index : Option Ptr) (f : W → W) : St Ptr W :=
  ⟨f s.world, s.trace ++ [⟨op, index, 0, none⟩]⟩

/-- A call of an operation that returns a status. -/
def St.call (s : St Ptr W) (op : OpName) (index : Option Ptr) (f : W → Int × W) :
    Int × St Ptr W :=
  ((f s.world).1, ⟨(f s.world).2, s.trace ++ [⟨op, index, (f s.world).1, none⟩]⟩)

/-- A call of an operation that returns a status and stores an `int`. -/
def St.callOut (s : St Ptr W) (op : OpName) (index : Option Ptr) (f : W → (Int × Int) × W) :
    (Int × Int) × St Ptr W :=
  ((f s.world).1,
    ⟨(f s.world).2, s.trace ++ [⟨op, index, (f s.world).1.1, some (f s.world).1.2⟩]⟩)

/-- The function `mii_build` of mii.c; `index` is the address of its local index. -/
def mii_build (e : Env Ptr W) (index : Ptr) (s : St Ptr W) : Int × St Ptr W :=
  let s := s.callVoid .mii_modtable_init (some index) (e.mii_modtable_init index)
  let r := s.call .mii_analysis_init none e.mii_analysis_init
  if r.1 ≠ 0 then (-1, r.2) else
  let r := r.2.call .mii_modtable_gen (some index) (e.mii_modtable_gen index)
  if r.1 ≠ 0 then (-1, r.2) else
  let a := r.2.callOut .mii_modtable_analysis (some index) (e.mii_modtable_analysis index)
  if a.1.1 ≠ 0 then (-1, a.2) else
  -- `if (count) mii_info(..) else mii_warn(..)`: diagnostics only
  let r := a.2.call .mii_modtable_export (some index) (e.mii_modtable_export index)
  if r.1 ≠ 0 then (-1, r.2) else
  let s := r.2.callVoid .mii_modtable_free (some index) (e.mii_modtable_free index)
  let s := s.callVoid .mii_analysis_free none e.mii_analysis_free
  (0, s)

/-- The function `mii_sync` of mii.c; `index` is the address of its local index. -/
def mii_sync (e : Env Ptr W) (index : Ptr) (s : St Ptr W) : Int × St Ptr W :=
  let s := s.callVoid .mii_modtable_init (some index) (e.mii_modtable_init index)
  let r := s.call .mii_analysis_init none e.mii_analysis_init
  if r.1 ≠ 0 then (-1, r.2) else
  let r := r.2.call .mii_modtable_gen (some index) (e.mii_modtable_gen index)
  if r.1 ≠ 0 then (-1, r.2) else
  -- a failure of the preanalysis is only reported (`mii_warn`)
  let p := r.2.call .mii_modtable_preanalysis (some index) (e.mii_modtable_preanalysis index)
  let a := p.2.callOut .mii_modtable_analysis (some index) (e.mii_modtable_analysis index)
  if a.1.1 ≠ 0 then (-1, a.2) else
  if a.1.2 ≠ 0 then
    let r := a.2.call .mii_modtable_export (some index) (e.mii_modtable_export index)
    if r.1 ≠ 0 then (-1, r.2) else
    let s := r.2.callVoid .mii_modtable_free (some index) (e.mii_modtable_free index)
    let s := s.callVoid .mii_analysis_free none e.mii_analysis_free
    (0, s)
  else
    let s := a.2.callVoid .mii_modtable_free (some index) (e.mii_modtable_free index)
    let s := s.callVoid .mii_analysis_free none e.mii_analysis_free
    (0, s)

/-- The function `mii_search_exact` of mii.c; `index` is the address of its local index and
`bindex` the address of the local index of the `mii_build` it may call. -/
def mii_search_exact (e : Env Ptr W) (index bindex : Ptr) (res : Ptr) (cmd : CString)
    (s : St Ptr W) : Int × St Ptr W :=
  let s := s.callVoid .mii_modtable_init (some index) (e.mii_modtable_init index)
  -- the search and the clean-up that follow the import
  let search := fun (s : St Ptr W) =>
    let r := s.call .mii_modtable_search_exact (some index) (e.mii_modtable_search_exact index cmd res)
    if r.1 ≠ 0 then (-1, r.2) else
    (0, r.2.callVoid .mii_modtable_free (some index) (e.mii_modtable_free index))
  let i := s.call .mii_modtable_import (some index) (e.mii_modtable_import index)
  if i.1 ≠ 0 then
    let b := mii_build e bindex i.2
    if b.1 ≠ 0 then (-1, b.2) else
    let i := b.2.call .mii_modtable_import (some index) (e.mii_modtable_import index)
    if i.1 ≠ 0 then (-1, i.2) else
    search i.2
  else search i.2

/-- The function `mii_search_fuzzy` of mii.c; `index` is the address of its local index and
`bindex` the address of the local index of the `mii_build` it may call. -/
def mii_search_fuzzy (e : Env Ptr W) (index bindex : Ptr) (res : Ptr) (cmd : CString)
    (s : St Ptr W) : Int × St Ptr W :=
  let s := s.callVoid .mii_modtable_init (some index) (e.mii_modtable_init index)
  -- the search and the clean-up that follow the import
  let search := fun (s : St Ptr W) =>
    let r := s.call .mii_modtable_search_similar (some index) (e.mii_modtable_search_similar index cmd res)
    if r.1 ≠ 0 then (-1, r.2) else
    (0, r.2.callVoid .mii_modtable_free (some index) (e.mii_modtable_free index))
  let i := s.call .mii_modtable_import (some index) (e.mii_modtable_import index)
  if i.1 ≠ 0 then
    let b := mii_build e bindex i.2
    if b.1 ≠ 0 then (-1, b.2) else
    let i := b.2.call .mii_modtable_import (some index) (e.mii_modtable_import index)
    if i.1 ≠ 0 then (-1, i.2) else
    search i.2
  else search i.2

/-- The function `mii_search_info` of mii.c; `index` is the address of its local index and
`bindex` the address of the local index of the `mii_build` it may call. -/
def mii_search_info (e : Env Ptr W) (index bindex : Ptr) (res : Ptr) (cmd : CString)
    (s : St Ptr W) : Int × St Ptr W :=
  let s := s.callVoid .mii_modtable_init (some index) (e.mii_modtable_init index)
  -- the search and the clean-up that follow the import
  let search := fun (s : St Ptr W) =>
    let r := s.call .mii_modtable_search_info (some index) (e.mii_modtable_search_info index cmd res)
    if r.1 ≠ 0 then (-1, r.2) else
    (0, r.2.callVoid .mii_modtable_free (some index) (e.mii_modtable_free index))
  let i := s.call .mii_modtable_import (some index) (e.mii_modtable_import index)
  if i.1 ≠ 0 then
    let b := mii_build e bindex i.2
    if b.1 ≠ 0 then (-1, b.2) else
    let i := b.2.call .mii_modtable_import (some index) (e.mii_modtable_import index)
    if i.1 ≠ 0 then (-1, i.2) else
    search i.2
  else search i.2

/-- The trace without the calls of `mii_modtable_preanalysis`. -/
def withoutPreanalysis (t : List (Event Ptr)) : List (Event Ptr) :=
  t.filter (fun ev => decide (ev.op ≠ OpName.mii_modtable_preanalysis))

/-- An environment in which every operation leaves the machine as it is:
`mii_modtable_preanalysis` returns `pre`, `mii_modtable_analysis` succeeds with the count
`cnt`, `mii_modtable_export` returns `exp` and every other operation succeeds. -/
def stubEnv (pre cnt exp : Int) : Env Unit Unit where
  mii_modtable_init := fun _ w => w
  mii_modtable_free := fun _ w => w
  mii_analysis_init := fun w => (0, w)
  mii_analysis_free := fun w => w
  mii_modtable_gen := fun _ w => (0, w)
  mii_modtable_import := fun _ w => (0, w)
  mii_modtable_preanalysis := fun _ w => (pre, w)
  mii_modtable_analysis := fun _ w => ((0, cnt), w)
  mii_modtable_export := fun _ w => (exp, w)
  mii_modtable_search_exact := fun _ _ _ w => (0, w)
  mii_modtable_search_similar := fun _ _ _ w => (0, w)
  mii_modtable_search_info := fun _ _ _ w => (0, w)

/-- The common shape of `mii_search_exact`, `mii_search_fuzzy` and `mii_search_info`,
which differ only in the search operation `search` (named `op`) that they call. -/
def searchWith (op : OpName) (search : Ptr → CString → Ptr → W → Int × W)
    (e : Env Ptr W) (index bindex : Ptr) (res : Ptr) (cmd : CString)
    (s : St Ptr W) : Int × St Ptr W :=
  let s := s.callVoid .mii_modtable_init (some index) (e.mii_modtable_init index)
  let search := fun (s : St Ptr W) =>
    let r := s.call op (some index) (search index cmd res)
    if r.1 ≠ 0 then (-1, r.2) else
    (0, r.2.callVoid .mii_modtable_free (some index) (e.mii_modtable_free index))
  let i := s.call .mii_modtable_import (some index) (e.mii_modtable_import index)
  if i.1 ≠ 0 then
    let b := mii_build e bindex i.2
    if b.1 ≠ 0 then (-1, b.2) else
    let i := b.2.call .mii_modtable_import (some index) (e.mii_modtable_import index)
    if i.1 ≠ 0 then (-1, i.2) else
    search i.2
  else search i.2

/-- What the specification asks of a search function `f` whose search operation is
`search`, recorded as `op`. With `i1` the first import, `b` the run of `mii_build` that
follows it and `i2` the import after that build: `f` returns 0 exactly when an import has
succeeded (the first one, or the second one after a successful build) and the search
then succeeds; it calls the search once when an import has succeeded and never
otherwise; and when the first import fails the calls of `f` are the initialisation,
that import and then the whole run of `mii_build`, followed by the second import when
the build has succeeded and by nothing (the status being -1) when it has failed. -/
def SearchContract (e : Env Ptr W) (op : OpName)
    (search : Ptr → CString → Ptr → W → Int × W)
    (f : Ptr → Ptr → Ptr → CString → St Ptr W → Int × St Ptr W) : Prop :=
  ∀ (index bindex res : Ptr) (cmd : CString) (w : W),
    let i1 := e.mii_modtable_import index (e.mii_modtable_init index w)
    let b := mii_build e bindex ⟨i1.2, []⟩
    let i2 := e.mii_modtable_import index b.2.world
    let imported := i1.1 = 0 ∨ (b.1 = 0 ∧ i2.1 = 0)
    let r := f index bindex res cmd ⟨w, []⟩
    (r.1 = 0 ↔ imported ∧ (search index cmd res (if i1.1 = 0 then i1.2 else i2.2)).1 = 0) ∧
    ((r.2.trace.filter (fun ev => decide (ev.op = op))).length = if imported then 1 else 0) ∧
    (i1.1 ≠ 0 →
      ∃ rest, r.2.trace =
          [⟨.mii_modtable_init, some index, 0, none⟩,
            ⟨.mii_modtable_import, some index, i1.1, none⟩] ++ b.2.trace ++ rest ∧
        (b.1 = 0 → rest.head? = some ⟨.mii_modtable_import, some index, i2.1, none⟩) ∧
        (b.1 ≠ 0 → rest = [] ∧ r.1 = -1))

/-- A small machine whose state says whether the index file exists: the import succeeds
exactly when it does, the export creates it, every other operation succeeds and leaves
the state as it is. -/
def cacheEnv : Env Unit Bool where
  mii_modtable_init := fun _ w => w
  mii_modtable_free := fun _ w => w
  mii_analysis_init := fun w => (0, w)
  mii_analysis_free := fun w => w
  mii_modtable_gen := fun _ w => (0, w)
  mii_modtable_import := fun _ w => (if w then 0 else -1, w)
  mii_modtable_preanalysis := fun _ w => (if w then 0 else -1, w)
  mii_modtable_analysis := fun _ w => ((0, 1), w)
  mii_modtable_export := fun _ _ => (0, true)
  mii_modtable_search_exact := fun _ _ _ w => (0, w)
  mii_modtable_search_similar := fun _ _ _ w => (0, w)
  mii_modtable_search_info := fun _ _ _ w => (0, w)

end MiiC

/-! ## `src/analysis.c`

The analysis of one modulefile. The C library, the regular expression, the Lua sandbox
and the file system are parameters (`AnalysisEnv`); the variables of the caller that the
functions write through their pointer arguments are the fields of `AnalysisOut`. -/

/-! ### `_mii_analysis_expand`

The copy loop of `_mii_analysis_expand`, byte by byte. The output and the words are
buffers; a `memcpy` that leaves its source or its destination is a fault. -/

/-- A `memcpy` of `_mii_analysis_expand` that goes out of bounds: the index of the word
being copied, the number of bytes the call copies, the size of the buffer of the word
(its bytes and the NUL), the offset in the output where the copy starts and the size the
output has been given by `realloc`. -/
structure CopyFault where
  word : Nat
  count : Nat
  source : Nat
  offset : Nat
  allocated : Nat
  deriving DecidableEq, Repr

/-- The call `realloc(buf, size)`: the old bytes are kept, as far as they fit; a byte
that is new is indeterminate and is shown as 0. `realloc(NULL, size)` is `realloc [] size`. -/
def realloc (buf : List Nat) (size : Nat) : List Nat :=
  buf.take size ++ List.replicate (size - buf.length) 0

/-- The call `memcpy(dst + off, src, n)`; `none` when it reads beyond the `src` buffer or
writes beyond the `dst` buffer. -/
def memcpy (dst : List Nat) (off : Nat) (src : List Nat) (n : Nat) : Option (List Nat) :=
  if n ≤ src.length ∧ off + n ≤ dst.length then
    some (dst.take off ++ src.take n ++ dst.drop (off + n))
  else none

/-- The loop of `_mii_analysis_expand` (analysis.c lines 346-351) from the word of index
`i` on: `words` are the words `w.we_wordv[i], ..` still to copy, `output` and `len` the
variables of the function (`none` is `NULL`). The buffer of a word is its bytes and the
NUL that ends it. -/
def expandLoop : List CString → Nat → Option (List Nat) → Nat →
    Except CopyFault (Option (List Nat))
  | [], _, output, _ => .ok output
  | word :: rest, i, output, len =>
    let wsize := word.length
    let len := len + wsize
    let output := realloc (output.getD []) (len + 1)
    match memcpy output (len - wsize) (word ++ [0]) (len + 1) with
    | some output => expandLoop rest (i + 1) (some output) len
    | none => .error ⟨i, len + 1, wsize + 1, len - wsize, len + 1⟩

/-- The function `_mii_analysis_expand`. The call `wordexp(expr, &w, WRDE_NOCMD)` is a
parameter: `none` when it fails, else the words `w.we_wordv[0 .. w.we_wordc - 1]`. The
result is the buffer `output` (`none` is `NULL`), or the fault of a copy. -/
def _mii_analysis_expand (wordexp : CString → Option (List CString)) (expr : CString) :
    Except CopyFault (Option (List Nat)) :=
  match wordexp expr with
  | none => .ok none
  | some words => expandLoop words 0 none 0

/-- The C string in a buffer: its bytes before the first NUL. -/
def cstring_of (buf : List Nat) : CString :=
  buf.takeWhile (fun c => decide (c ≠ 0))

/-! ### The analysis functions -/

/-- The variables of the caller behind `bins_out`, `num_bins_out`, `modpaths_out` and
`num_modpaths_out`. -/
structure AnalysisOut where
  bins : List CString
  num_bins : Int
  modpaths : List CString
  num_modpaths : Int
  deriving DecidableEq, Repr

/-- The state that the analysis changes besides its outputs: the Lua interpreter
(`lua_state`) and the environment of the process (`setenv`). -/
structure AnalysisSys (Lua : Type) where
  lua : Lua
  environ : List (CString × CString)

/-- An access of the analysis that leaves its object: the read of `linebuf[len - 1]` on
a buffer of length 0, before the start of `linebuf`, or a copy of
`_mii_analysis_expand`. -/
inductive AnalysisFault
  | line_underrun
  | copy (f : CopyFault)
  deriving DecidableEq, Repr

/-- What `analysis.c` takes from outside. -/
structure AnalysisEnv (File Lua : Type) where
  /-- The compile-time switch `MII_ENABLE_LUA`. -/
  enable_lua : Bool
  /-- The call `fopen(path, "r")`; `none` is `NULL`: the file cannot be opened for reading. -/
  fopen : CString → Option File
  /-- The strings that the successive calls of `fgets` on the file leave in `linebuf`; a
  string is empty when what `fgets` has read starts with a NUL byte. -/
  fgets_all : File → List CString
  /-- The whole file (`fseek`, `ftell`, `malloc`, `fread`); `none` when `malloc` fails. -/
  read_all : File → Option CString
  /-- The call `regexec` with the Lmod expression: `none` when the line does not match,
  else `rm_so` and `rm_eo` of the second group. -/
  regexec : CString → Option (Int × Int)
  /-- The function `_mii_analysis_lua_run`. -/
  lua_run : Lua → CString → Int × Lua
  /-- The function `_mii_analysis_get_paths`: the paths on top of the Lua stack. -/
  get_paths : Lua → List CString × Lua
  /-- The call `wordexp(expr, &w, WRDE_NOCMD)` under the environment of the process, whose
  variables it substitutes: `none` when it fails, else the words. -/
  wordexp : List (CString × CString) → CString → Option (List CString)
  /-- The calls `opendir` and `readdir`: the names in the directory, `none` when it cannot
  be opened. -/
  opendir : CString → Option (List CString)
  /-- The call `stat`: `none` when it fails, else whether the file is regular or a link. -/
  stat : CString → Option Bool
  /-- The call `access(path, X_OK)` returns 0. -/
  access_x : CString → Bool

section AnalysisC

variable {File Lua : Type}

/-- The function `mii_join_path` of util.c on two non-null strings: `a`, `'/'`, `b`. -/
def mii_join_path (a b : CString) : CString := a ++ [47] ++ b

/-- The tokens that successive calls of `strtok` cut out of `s`. -/
def strtok_all (delims : List Nat) (s : CString) : List CString :=
  (s.splitOnP (fun c => decide (c ∈ delims))).filter (fun t => decide (t ≠ []))

/-- The statements `int len = strlen(linebuf);` and
`if (linebuf[len - 1] == '\n') linebuf[len - 1] = 0;`. On an empty string the index is
-1: the read is before the start of the buffer. -/
def stripNewline (linebuf : CString) : Except AnalysisFault CString :=
  match linebuf.getLast? with
  | none => .error .line_underrun
  | some c => .ok (if c = 10 then linebuf.dropLast else linebuf)

/-- The call `setenv(name, value, 1)`: it fails, and changes nothing, when `name` is
empty or contains `'='`; else `name` is given the value. The source ignores its status. -/
def setenv (environ : List (CString × CString)) (name value : CString) :
    List (CString × CString) :=
  if name = [] ∨ 61 ∈ name then environ
  else (name, value) :: environ.filter (fun kv => decide (kv.1 ≠ name))

/-- The function `_mii_analysis_scan_path`: the executable files of the directories of
`path` are appended to the commands. -/
def _mii_analysis_scan_path (env : AnalysisEnv File Lua) (path : CString)
    (out : AnalysisOut) : AnalysisOut :=
  (strtok_all [58] path).foldl (fun out cur_path =>
    match env.opendir cur_path with
    | none => out
    | some names =>
      names.foldl (fun out d_name =>
        if d_name = cstr "." ∨ d_name = cstr ".." then out else
        let abs_path := mii_join_path cur_path d_name
        match env.stat abs_path with
        | some kind =>
          if kind ∧ env.access_x abs_path then
            { out with num_bins := out.num_bins + 1, bins := out.bins ++ [d_name] }
          else out
        | none => out) out) out

/-- The function `_mii_analysis_lmod`. -/
def _mii_analysis_lmod (env : AnalysisEnv File Lua) (path : CString)
    (out : AnalysisOut) (sys : AnalysisSys Lua) :
    Except AnalysisFault (Int × AnalysisOut × AnalysisSys Lua) :=
  match env.fopen path with
  | none => .ok (-1, out, sys)
  | some f =>
    if ¬ env.enable_lua then do
      let out ← (env.fgets_all f).foldlM (fun out linebuf => do
        let linebuf ← stripNewline linebuf
        match env.regexec linebuf with
        | some (rm_so, rm_eo) =>
          if rm_so < 0 then pure out else
          pure (_mii_analysis_scan_path env ((linebuf.take rm_eo.toNat).drop rm_so.toNat) out)
        | none => pure out) out
      pure (0, out, sys)
    else
      match env.read_all f with
      | some buffer =>
        let r := env.lua_run sys.lua buffer
        if r.1 ≠ 0 then .ok (-1, out, { sys with lua := r.2 }) else
        let m := env.get_paths r.2
        let out := { out with modpaths := m.1, num_modpaths := m.1.length }
        let b := env.get_paths m.2
        let out := b.1.foldl (fun out p => _mii_analysis_scan_path env p out) out
        .ok (0, out, { sys with lua := b.2 })
      | none => .ok (0, out, sys)

/-- The call `_mii_analysis_expand(val)` of the Tcl analysis: the string handed back
(`none` is `NULL`), or the fault of a copy. -/
def expandValue (env : AnalysisEnv File Lua) (environ : List (CString × CString))
    (val : CString) : Except AnalysisFault (Option CString) :=
  match _mii_analysis_expand (env.wordexp environ) val with
  | .error f => .error (.copy f)
  | .ok none => .ok none
  | .ok (some buf) => .ok (some (cstring_of buf))

/-- The function `_mii_analysis_tcl`. -/
def _mii_analysis_tcl (env : AnalysisEnv File Lua) (path : CString)
    (out : AnalysisOut) (sys : AnalysisSys Lua) :
    Except AnalysisFault (Int × AnalysisOut × AnalysisSys Lua) :=
  match env.fopen path with
  | none => .ok (-1, out, sys)
  | some f => do
    let r ← (env.fgets_all f).foldlM (fun (st : AnalysisOut × AnalysisSys Lua) linebuf => do
      let linebuf ← stripNewline linebuf
      match strtok_all [32, 9] linebuf with
      | [] => pure st
      | cmd :: rest =>
        if cmd.head? = some 35 then pure st else
        if cmd = cstr "set" then
          match rest with
          | key :: val :: _ =>
            match ← expandValue env st.2.environ val with
            | some expanded =>
              pure (st.1, { st.2 with environ := setenv st.2.environ key expanded })
            | none => pure st
          | _ => pure st
        else if cmd = cstr "prepend-path" ∨ cmd = cstr "append-path" then
          match rest with
          | key :: rest =>
            if key ≠ cstr "PATH" then pure st else
            match rest with
            | val :: _ =>
              match ← expandValue env st.2.environ val with
              | some expanded => pure (_mii_analysis_scan_path env expanded st.1, st.2)
              | none => pure st
            | [] => pure st
          | [] => pure st
        else pure st) (out, sys)
    pure (0, r.1, r.2)

/-- The function `mii_analysis_run`. -/
def mii_analysis_run (env : AnalysisEnv File Lua) (modfile : CString) (modtype : Int)
    (out : AnalysisOut) (sys : AnalysisSys Lua) :
    Except AnalysisFault (Int × AnalysisOut × AnalysisSys Lua) :=
  if modtype = MII_MODTABLE_MODTYPE_LMOD then _mii_analysis_lmod env modfile out sys
  else if modtype = MII_MODTABLE_MODTYPE_TCL then
    -- the Tcl analysis is not given `modpaths_out` and `num_modpaths_out`
    _mii_analysis_tcl env modfile out sys
  else .ok (0, out, sys)

/-- A machine on which no file can be opened. -/
def unreadableEnv : AnalysisEnv Unit Unit where
  enable_lua := false
  fopen := fun _ => none
  fgets_all := fun _ => []
  read_all := fun _ => none
  regexec := fun _ => none
  lua_run := fun l _ => (0, l)
  get_paths := fun l => ([], l)
  wordexp := fun _ _ => none
  opendir := fun _ => none
  stat := fun _ => none
  access_x := fun _ => false

end AnalysisC

/-- A `wordexp` on a machine with the directories `/opt/a/bin` and `/opt/b/bin`: the
pattern `/opt/*/bin` expands to these two words, any other expression here to itself. -/
def globWordexp (expr : CString) : Option (List CString) :=
  if expr = cstr "/opt/*/bin" then some [cstr "/opt/a/bin", cstr "/opt/b/bin"]
  else some [expr]
/-! # Theorems -/

/-! ### Loops -/

theorem iterate_inv {σ : Type} (body : Nat → σ → Option σ) (P : Nat → σ → Prop) :
    ∀ (count i : Nat) (s : σ), P i s →
      (∀ k t, i ≤ k → k < i + count → P k t → ∃ t', body k t = some t' ∧ P (k + 1) t') →
      ∃ s', iterate body count i s = some s' ∧ P (i + count) s' := by
  intro count
  induction count with
  | zero => intro i s h _; exact ⟨s, rfl, by simpa using h⟩
  | succ n ih =>
    intro i s h hstep
    obtain ⟨t, ht, hP⟩ := hstep i s (Nat.le_refl i) (by omega) h
    obtain ⟨s', hs', hP'⟩ := ih (i + 1) t hP (fun k u hk hk' hu => hstep k u (by omega) (by omega) hu)
    refine ⟨s', ?_, ?_⟩
    · simp [iterate, ht, hs']
    · have : i + (n + 1) = i + 1 + n := by omega
      rw [this]; exact hP'

theorem forLoop_inv {σ : Type} (body : Nat → σ → Option σ) (P : Nat → σ → Prop)
    (lo hi : Nat) (s : σ) (hlo : lo ≤ hi + 1) (h : P lo s)
    (hstep : ∀ k t, lo ≤ k → k ≤ hi → P k t → ∃ t', body k t = some t' ∧ P (k + 1) t') :
    ∃ s', forLoop lo hi body s = some s' ∧ P (hi + 1) s' := by
  obtain ⟨s', hs', hP⟩ := iterate_inv body P (hi + 1 - lo) lo s h
    (fun k t hk hk' ht => hstep k t hk (by omega) ht)
  refine ⟨s', hs', ?_⟩
  have : lo + (hi + 1 - lo) = hi + 1 := by omega
  rw [this] at hP; exact hP

/-! ### The distance matrix -/

theorem cell_lt {al bl p q : Nat} (hp : p ≤ al) (hq : q ≤ bl) :
    p * (bl + 1) + q < (al + 1) * (bl + 1) := by
  have h1 : p * (bl + 1) ≤ al * (bl + 1) := Nat.mul_le_mul_right _ hp
  have h2 : (al + 1) * (bl + 1) = al * (bl + 1) + (bl + 1) := Nat.succ_mul _ _
  omega

theorem cell_inj {w p q i j : Nat} (hq : q < w) (hj : j < w)
    (h : p * w + q = i * w + j) : p = i ∧ q = j := by
  have hw : 0 < w := by omega
  have h1 : (p * w + q) / w = p := by
    rw [Nat.add_comm, Nat.add_mul_div_right _ _ hw, Nat.div_eq_of_lt hq, Nat.zero_add]
  have h2 : (i * w + j) / w = i := by
    rw [Nat.add_comm, Nat.add_mul_div_right _ _ hw, Nat.div_eq_of_lt hj, Nat.zero_add]
  have hpi : p = i := by rw [← h1, ← h2, h]
  subst hpi
  exact ⟨rfl, by omega⟩

/-- Writing `v` into the cell `(i, j)`: the write is in bounds, the cell holds `v`
afterwards and every other cell of the table is unchanged. -/
theorem writeCell_cell {al bl : Nat} (mat : List Nat) (i j v : Nat)
    (hlen : mat.length = (al + 1) * (bl + 1)) (hi : i ≤ al) (hj : j ≤ bl) :
    writeCell mat (i * (bl + 1) + j) v = some (mat.set (i * (bl + 1) + j) v) ∧
    (mat.set (i * (bl + 1) + j) v).length = (al + 1) * (bl + 1) ∧
    (mat.set (i * (bl + 1) + j) v)[i * (bl + 1) + j]? = some v ∧
    ∀ p q, q ≤ bl → ¬ (p = i ∧ q = j) →
      (mat.set (i * (bl + 1) + j) v)[p * (bl + 1) + q]? = mat[p * (bl + 1) + q]? := by
  have hlt : i * (bl + 1) + j < mat.length := by rw [hlen]; exact cell_lt hi hj
  refine ⟨by simp [writeCell, hlt], by simp [hlen], ?_, ?_⟩
  · simp [List.getElem?_set, hlt]
  · intro p q hq hne
    have hidx : i * (bl + 1) + j ≠ p * (bl + 1) + q := by
      intro h
      have := cell_inj (w := bl + 1) (by omega) (by omega) h
      exact hne ⟨this.1.symm, this.2.symm⟩
    simp [List.getElem?_set, hidx]

/-- Storing the value of the recurrence in a cell extends the filled region by it. -/
theorem MatInv.write {a b : CString} {done : Nat → Nat → Prop} {mat : List Nat}
    (h : MatInv a b done mat) (i j : Nat) (hi : i ≤ a.length) (hj : j ≤ b.length) :
    writeCell mat (i * (b.length + 1) + j) (osaRec a b i j)
        = some (mat.set (i * (b.length + 1) + j) (osaRec a b i j)) ∧
      MatInv a b (fun p q => done p q ∨ (p = i ∧ q = j))
        (mat.set (i * (b.length + 1) + j) (osaRec a b i j)) := by
  obtain ⟨h1, h2, h3, h4⟩ := writeCell_cell mat i j (osaRec a b i j) h.1 hi hj
  refine ⟨h1, h2, ?_⟩
  intro p q hp hq hd
  by_cases hpq : p = i ∧ q = j
  · rw [hpq.1, hpq.2]; exact h3
  · rw [h4 p q hq hpq]
    rcases hd with hd | hd
    · exact h.2 p q hp hq hd
    · exact absurd hd hpq

theorem MatInv.mono {a b : CString} {done done' : Nat → Nat → Prop} {mat : List Nat}
    (h : MatInv a b done mat)
    (hsub : ∀ p q, p ≤ a.length → q ≤ b.length → done' p q → done p q) :
    MatInv a b done' mat :=
  ⟨h.1, fun p q hp hq hd => h.2 p q hp hq (hsub p q hp hq hd)⟩

theorem MatInv.write_other {a b : CString} {done : Nat → Nat → Prop} {mat : List Nat}
    (h : MatInv a b done mat) (i j v : Nat) (hi : i ≤ a.length) (hj : j ≤ b.length)
    (hnot : ¬ done i j) :
    MatInv a b done (mat.set (i * (b.length + 1) + j) v) := by
  obtain ⟨_, h2, _, h4⟩ := writeCell_cell mat i j v h.1 hi hj
  refine ⟨h2, ?_⟩
  intro p q hp hq hd
  have hpq : ¬ (p = i ∧ q = j) := by
    rintro ⟨rfl, rfl⟩; exact hnot hd
  rw [h4 p q hq hpq]
  exact h.2 p q hp hq hd

theorem mii_min_eq (x y : Nat) : mii_min x y = min x y := by
  unfold mii_min; split <;> omega

theorem osaRec_zero_right (a b : CString) (i : Nat) : osaRec a b i 0 = i := by
  cases i <;> simp [osaRec]

theorem osaRec_succ_succ (a b : CString) (i j : Nat) :
    osaRec a b (i + 1) (j + 1) =
      if 0 < i ∧ 0 < j ∧ tolower (a.getD i 0) = tolower (b.getD (j - 1) 0)
          ∧ tolower (a.getD (i - 1) 0) = tolower (b.getD j 0) then
        min (min (osaRec a b i (j + 1) + 1)
          (min (osaRec a b (i + 1) j + 1)
            (osaRec a b i j + if tolower (a.getD i 0) ≠ tolower (b.getD j 0) then 1 else 0)))
          (osaRec a b (i - 1) (j - 1) + 1)
      else
        min (osaRec a b i (j + 1) + 1)
          (min (osaRec a b (i + 1) j + 1)
            (osaRec a b i j + if tolower (a.getD i 0) ≠ tolower (b.getD j 0) then 1 else 0)) := by
  rw [osaRec]

theorem getElem?_eq_getD {l : List Nat} {k : Nat} (h : k < l.length) :
    l[k]? = some (l.getD k 0) := by
  simp [List.getD, List.getElem?_eq_getElem h]

/-- One cell of the table: when everything above and to the left of `(i, j)` holds the
recurrence, the body of the inner loop makes only in-bounds accesses and leaves the
recurrence in `(i, j)` too. -/
theorem cellStep_spec {a b : CString} {mat : List Nat} (i j : Nat)
    (hi1 : 1 ≤ i) (hi : i ≤ a.length) (hj1 : 1 ≤ j) (hj : j ≤ b.length)
    (h : MatInv a b (fun p q => p = 0 ∨ q = 0 ∨ p < i ∨ (p = i ∧ q < j)) mat) :
    ∃ mat', cellStep a b b.length i j mat = some mat' ∧
      MatInv a b (fun p q => p = 0 ∨ q = 0 ∨ p < i ∨ (p = i ∧ q < j + 1)) mat' := by
  obtain ⟨i, rfl⟩ : ∃ k, i = k + 1 := ⟨i - 1, by omega⟩
  obtain ⟨j, rfl⟩ : ∃ k, j = k + 1 := ⟨j - 1, by omega⟩
  have e1 : mat[(i + 1 - 1) * (b.length + 1) + (j + 1)]? = some (osaRec a b i (j + 1)) := by
    simpa using h.2 i (j + 1) (by omega) hj (by right; right; left; omega)
  have e2 : mat[(i + 1) * (b.length + 1) + (j + 1) - 1]? = some (osaRec a b (i + 1) j) := by
    simpa using h.2 (i + 1) j hi (by omega) (by right; right; right; exact ⟨rfl, by omega⟩)
  have e3 : mat[(i + 1 - 1) * (b.length + 1) + (j + 1) - 1]? = some (osaRec a b i j) := by
    simpa using h.2 i j (by omega) (by omega) (by right; right; left; omega)
  have ea : a[i + 1 - 1]? = some (a.getD i 0) := by
    simpa using getElem?_eq_getD (l := a) (k := i) (by omega)
  have eb : b[j + 1 - 1]? = some (b.getD j 0) := by
    simpa using getElem?_eq_getD (l := b) (k := j) (by omega)
  have hnot : ¬ (fun p q => p = 0 ∨ q = 0 ∨ p < i + 1 ∨ (p = i + 1 ∧ q < j + 1)) (i + 1) (j + 1) := by
    simp
  have hsub : ∀ p q, p ≤ a.length → q ≤ b.length →
      (p = 0 ∨ q = 0 ∨ p < i + 1 ∨ (p = i + 1 ∧ q < j + 1 + 1)) →
      ((p = 0 ∨ q = 0 ∨ p < i + 1 ∨ (p = i + 1 ∧ q < j + 1)) ∨ (p = i + 1 ∧ q = j + 1)) := by
    intro p q _ _ hd; omega
  obtain ⟨w1, -, -, -⟩ := writeCell_cell mat (i + 1) (j + 1)
    (mii_min (osaRec a b i (j + 1) + 1) (mii_min (osaRec a b (i + 1) j + 1)
      (osaRec a b i j + if tolower (a.getD i 0) ≠ tolower (b.getD j 0) then 1 else 0)))
    h.1 hi hj
  have h1 := h.write_other (i + 1) (j + 1)
    (mii_min (osaRec a b i (j + 1) + 1) (mii_min (osaRec a b (i + 1) j + 1)
      (osaRec a b i j + if tolower (a.getD i 0) ≠ tolower (b.getD j 0) then 1 else 0)))
    hi hj hnot
  by_cases hc : 0 < i ∧ 0 < j ∧ tolower (a.getD i 0) = tolower (b.getD (j - 1) 0)
      ∧ tolower (a.getD (i - 1) 0) = tolower (b.getD j 0)
  · obtain ⟨hi0, hj0, hc1, hc2⟩ := hc
    have eb2 : b[j + 1 - 2]? = some (b.getD (j - 1) 0) := by
      simpa using getElem?_eq_getD (l := b) (k := j - 1) (by omega)
    have ea2 : a[i + 1 - 2]? = some (a.getD (i - 1) 0) := by
      simpa using getElem?_eq_getD (l := a) (k := i - 1) (by omega)
    obtain ⟨-, -, r3, r4⟩ := writeCell_cell mat (i + 1) (j + 1)
      (mii_min (osaRec a b i (j + 1) + 1) (mii_min (osaRec a b (i + 1) j + 1)
        (osaRec a b i j + if tolower (a.getD i 0) ≠ tolower (b.getD j 0) then 1 else 0)))
      h.1 hi hj
    have e4 := r4 (i - 1) (j - 1) (by omega) (by omega)
    rw [h.2 (i - 1) (j - 1) (by omega) (by omega) (by right; right; left; omega)] at e4
    have e4' : (mat.set ((i + 1) * (b.length + 1) + (j + 1))
        (mii_min (osaRec a b i (j + 1) + 1) (mii_min (osaRec a b (i + 1) j + 1)
        (osaRec a b i j + if tolower (a.getD i 0) ≠ tolower (b.getD j 0) then 1 else 0))))[
          (i + 1 - 2) * (b.length + 1) + (j + 1) - 2]? = some (osaRec a b (i - 1) (j - 1)) := by
      have hidx : (i + 1 - 2) * (b.length + 1) + (j + 1) - 2
          = (i - 1) * (b.length + 1) + (j - 1) := by
        have : i + 1 - 2 = i - 1 := by omega
        rw [this]; omega
      rw [hidx]; exact e4
    have hval : mii_min (mii_min (osaRec a b i (j + 1) + 1) (mii_min (osaRec a b (i + 1) j + 1)
        (osaRec a b i j + if tolower (a.getD i 0) ≠ tolower (b.getD j 0) then 1 else 0)))
        (osaRec a b (i - 1) (j - 1) + 1) = osaRec a b (i + 1) (j + 1) := by
      have hcond : 0 < i ∧ 0 < j ∧ tolower (a.getD i 0) = tolower (b.getD (j - 1) 0)
          ∧ tolower (a.getD (i - 1) 0) = tolower (b.getD j 0) := ⟨hi0, hj0, hc1, hc2⟩
      rw [osaRec_succ_succ, if_pos hcond]
      simp only [mii_min_eq]
    obtain ⟨w2, h2⟩ := h1.write (i + 1) (j + 1) hi hj
    rw [← hval] at w2 h2
    refine ⟨_, ?_, h2.mono hsub⟩
    have hgt : i + 1 > 1 ∧ j + 1 > 1 := by omega
    simp only [cellStep, e1, e2, e3, ea, eb, eb2, ea2, w1, r3, e4', w2, if_pos hgt, if_pos hc1,
      if_pos hc2, Option.bind_eq_bind, Option.some_bind, Option.pure_def]
  · have hval : mii_min (osaRec a b i (j + 1) + 1) (mii_min (osaRec a b (i + 1) j + 1)
        (osaRec a b i j + if tolower (a.getD i 0) ≠ tolower (b.getD j 0) then 1 else 0))
        = osaRec a b (i + 1) (j + 1) := by
      rw [osaRec_succ_succ, if_neg hc]
      simp only [mii_min_eq]
    have h2 := (h.write (i + 1) (j + 1) hi hj).2
    rw [← hval] at h2
    refine ⟨_, ?_, h2.mono hsub⟩
    by_cases hgt : i + 1 > 1 ∧ j + 1 > 1
    · have eb2 : b[j + 1 - 2]? = some (b.getD (j - 1) 0) := by
        simpa using getElem?_eq_getD (l := b) (k := j - 1) (by omega)
      by_cases hc1 : tolower (a.getD i 0) = tolower (b.getD (j - 1) 0)
      · have ea2 : a[i + 1 - 2]? = some (a.getD (i - 1) 0) := by
          simpa using getElem?_eq_getD (l := a) (k := i - 1) (by omega)
        have hc2 : ¬ tolower (a.getD (i - 1) 0) = tolower (b.getD j 0) := by
          intro hc2; exact hc ⟨by omega, by omega, hc1, hc2⟩
        simp only [cellStep, e1, e2, e3, ea, eb, eb2, ea2, w1, if_pos hgt, if_pos hc1,
          if_neg hc2, Option.bind_eq_bind, Option.some_bind, Option.pure_def]
      · simp only [cellStep, e1, e2, e3, ea, eb, eb2, w1, if_pos hgt, if_neg hc1,
          Option.bind_eq_bind, Option.some_bind, Option.pure_def]
    · simp only [cellStep, e1, e2, e3, ea, eb, w1, if_neg hgt,
        Option.bind_eq_bind, Option.some_bind, Option.pure_def]

theorem osaRec_zero_left (a b : CString) (j : Nat) : osaRec a b 0 j = j := by
  simp [osaRec]

theorem tableFits_lengths {malloc : Nat → Bool} {a b : CString} (h : TableFits malloc a b) :
    a.length + 1 ≤ INT_MAX ∧ b.length + 1 ≤ INT_MAX := by
  have h1 : a.length + 1 ≤ (a.length + 1) * (b.length + 1) :=
    Nat.le_mul_of_pos_right _ (by omega)
  have h2 : b.length + 1 ≤ (a.length + 1) * (b.length + 1) :=
    Nat.le_mul_of_pos_left _ (by omega)
  have := h.1
  omega

/-- The first lines of the function, when the table fits: the lengths and the size are
in range and `malloc` grants the table. -/
theorem tableFits_guards {malloc : Nat → Bool} {a b : CString} (h : TableFits malloc a b) :
    strlen_int a = some a.length ∧ strlen_int b = some b.length ∧
    int_add a.length 1 = some (a.length + 1) ∧ int_add b.length 1 = some (b.length + 1) ∧
    int_mul (a.length + 1) (b.length + 1) = some ((a.length + 1) * (b.length + 1)) := by
  have hl := tableFits_lengths h
  have h1 : a.length ≤ INT_MAX := by omega
  have h2 : b.length ≤ INT_MAX := by omega
  exact ⟨by simp only [strlen_int, if_pos h1], by simp only [strlen_int, if_pos h2],
    by simp only [int_add, if_pos hl.1], by simp only [int_add, if_pos hl.2],
    by simp only [int_mul, if_pos h.1]⟩

/-- The matrix implementation computes the recurrence when the table fits: every access
is in bounds and the bottom-right cell holds `osaRec a b (strlen a) (strlen b)`. -/
theorem mii_levenshtein_distance_on_eq_osaRec (malloc : Nat → Bool) (a b : CString)
    (hfit : TableFits malloc a b) :
    mii_levenshtein_distance_on malloc a b = some (osaRec a b a.length b.length) := by
  obtain ⟨g1, g2, g3, g4, g5⟩ := tableFits_guards hfit
  have g6 := hfit.2
  -- the zeroed matrix
  have h0 : MatInv a b (fun p q => q = 0 ∧ p < 1)
      (List.replicate ((a.length + 1) * (b.length + 1)) 0) := by
    refine ⟨by simp, ?_⟩
    rintro p q _ _ ⟨rfl, hp⟩
    have hp0 : p = 0 := by omega
    subst hp0
    have hpos : 0 < (a.length + 1) * (b.length + 1) := Nat.mul_pos (by omega) (by omega)
    simp [osaRec_zero_left, List.getElem?_replicate, hpos]
  -- first column
  obtain ⟨m1, e1, h1⟩ := forLoop_inv (fun i m => writeCell m ((b.length + 1) * i) i)
    (fun i m => MatInv a b (fun p q => q = 0 ∧ p < i) m) 1 a.length _ (by omega) h0
    (by
      intro k t _ hk ht
      obtain ⟨w, hw⟩ := ht.write k 0 hk (by omega)
      rw [osaRec_zero_right, Nat.add_zero, Nat.mul_comm] at w
      rw [osaRec_zero_right, Nat.add_zero, Nat.mul_comm] at hw
      exact ⟨_, w, hw.mono (by intro p q _ _ hd; omega)⟩)
  -- first row
  obtain ⟨m2, e2, h2⟩ := forLoop_inv (fun i m => writeCell m i i)
    (fun i m => MatInv a b (fun p q => q = 0 ∨ (p = 0 ∧ q < i)) m) 1 b.length m1 (by omega)
    (h1.mono (by intro p q _ _ hd; omega))
    (by
      intro k t _ hk ht
      obtain ⟨w, hw⟩ := ht.write 0 k (by omega) hk
      rw [osaRec_zero_left, Nat.zero_mul, Nat.zero_add] at w
      rw [osaRec_zero_left, Nat.zero_mul, Nat.zero_add] at hw
      exact ⟨_, w, hw.mono (by intro p q _ _ hd; omega)⟩)
  -- the rows of the table
  obtain ⟨m3, e3, h3⟩ := forLoop_inv
    (fun i m => forLoop 1 b.length (fun j m => cellStep a b b.length i j m) m)
    (fun i m => MatInv a b (fun p q => p = 0 ∨ q = 0 ∨ p < i) m) 1 a.length m2 (by omega)
    (h2.mono (by intro p q _ _ hd; omega))
    (by
      intro i t hi1 hi ht
      obtain ⟨t', et', ht'⟩ := forLoop_inv (fun j m => cellStep a b b.length i j m)
        (fun j m => MatInv a b (fun p q => p = 0 ∨ q = 0 ∨ p < i ∨ (p = i ∧ q < j)) m)
        1 b.length t (by omega) (ht.mono (by intro p q _ _ hd; omega))
        (fun j u hj1 hj hu => cellStep_spec i j hi1 hi hj1 hj hu)
      exact ⟨t', et', ht'.mono (by intro p q _ hq hd; omega)⟩)
  have hlast : (a.length + 1) * (b.length + 1) - 1 = a.length * (b.length + 1) + b.length := by
    rw [Nat.succ_mul]; omega
  have hres := h3.2 a.length b.length (Nat.le_refl _) (Nat.le_refl _)
    (by right; right; omega)
  simp only [mii_levenshtein_distance_on, g1, g2, g3, g4, g5, g6, if_true, e1, e2, e3, hlast,
    hres, Option.bind_eq_bind, Option.some_bind, Option.pure_def]

/-- The embedded function is `none` when the table does not fit. -/
theorem mii_levenshtein_distance_on_eq_none (malloc : Nat → Bool) (a b : CString)
    (hfit : ¬ TableFits malloc a b) :
    mii_levenshtein_distance_on malloc a b = none := by
  by_cases h1 : a.length ≤ INT_MAX
  · by_cases h2 : b.length ≤ INT_MAX
    · by_cases h3 : a.length + 1 ≤ INT_MAX
      · by_cases h4 : b.length + 1 ≤ INT_MAX
        · by_cases h5 : (a.length + 1) * (b.length + 1) ≤ INT_MAX
          · have h6 : ¬ malloc ((a.length + 1) * (b.length + 1) * sizeof_int) = true :=
              fun h6 => hfit ⟨h5, h6⟩
            simp only [mii_levenshtein_distance_on, strlen_int, int_add, int_mul, if_pos h1,
              if_pos h2, if_pos h3, if_pos h4, if_pos h5, if_neg h6, Option.bind_eq_bind,
              Option.some_bind, Option.none_bind]
          · simp only [mii_levenshtein_distance_on, strlen_int, int_add, int_mul, if_pos h1,
              if_pos h2, if_pos h3, if_pos h4, if_neg h5, Option.bind_eq_bind,
              Option.some_bind, Option.none_bind]
        · simp only [mii_levenshtein_distance_on, strlen_int, int_add, if_pos h1,
            if_pos h2, if_pos h3, if_neg h4, Option.bind_eq_bind,
            Option.some_bind, Option.none_bind]
      · simp only [mii_levenshtein_distance_on, strlen_int, int_add, if_pos h1,
          if_pos h2, if_neg h3, Option.bind_eq_bind,
          Option.some_bind, Option.none_bind]
    · simp only [mii_levenshtein_distance_on, strlen_int, if_pos h1,
        if_neg h2, Option.bind_eq_bind, Option.some_bind, Option.none_bind]
  · simp only [mii_levenshtein_distance_on, strlen_int, if_neg h1,
      Option.bind_eq_bind, Option.none_bind]

/-- No value of the recurrence exceeds the sum of the two prefix lengths, so the values
stored in the matrix stay in the range of `int` when the table fits. -/
theorem osaRec_le_add (a b : CString) : ∀ n i j, i + j = n → osaRec a b i j ≤ i + j := by
  intro n
  induction n using Nat.strong_induction_on with
  | _ n ih =>
    intro i j hn
    cases i with
    | zero => have h := osaRec_zero_left a b j; omega
    | succ i =>
      cases j with
      | zero => have h := osaRec_zero_right a b (i + 1); omega
      | succ j =>
        have r1 := ih (i + (j + 1)) (by omega) i (j + 1) rfl
        rw [osaRec_succ_succ]
        split <;> omega

/-! ### Properties of the recurrence -/

theorem osaRec_symm (a b : CString) : ∀ n i j, i + j = n → osaRec a b i j = osaRec b a j i := by
  intro n
  induction n using Nat.strong_induction_on with
  | _ n ih =>
    intro i j hn
    cases i with
    | zero => rw [osaRec_zero_left, osaRec_zero_right]
    | succ i =>
      cases j with
      | zero => rw [osaRec_zero_left, osaRec_zero_right]
      | succ j =>
        have r1 := ih (i + (j + 1)) (by omega) i (j + 1) rfl
        have r2 := ih (i + 1 + j) (by omega) (i + 1) j rfl
        have r3 := ih (i + j) (by omega) i j rfl
        have r4 := ih (i - 1 + (j - 1)) (by omega) (i - 1) (j - 1) rfl
        have hc : (0 < j ∧ 0 < i ∧ tolower (b.getD j 0) = tolower (a.getD (i - 1) 0)
            ∧ tolower (b.getD (j - 1) 0) = tolower (a.getD i 0)) ↔
            (0 < i ∧ 0 < j ∧ tolower (a.getD i 0) = tolower (b.getD (j - 1) 0)
            ∧ tolower (a.getD (i - 1) 0) = tolower (b.getD j 0)) := by
          constructor
          · rintro ⟨h1, h2, h3, h4⟩; exact ⟨h2, h1, h4.symm, h3.symm⟩
          · rintro ⟨h1, h2, h3, h4⟩; exact ⟨h2, h1, h4.symm, h3.symm⟩
        have hne : (tolower (b.getD j 0) ≠ tolower (a.getD i 0)) ↔
            (tolower (a.getD i 0) ≠ tolower (b.getD j 0)) := ⟨Ne.symm, Ne.symm⟩
        rw [osaRec_succ_succ a b, osaRec_succ_succ b a, r1, r2, r3, r4]
        simp only [hc, hne]
        split <;> omega

theorem osaRec_self (s : CString) : ∀ i, osaRec s s i i = 0 := by
  intro i
  induction i with
  | zero => rw [osaRec_zero_left]
  | succ i ih =>
    rw [osaRec_succ_succ, ih]
    simp only [ne_eq, not_true_eq_false, if_false, Nat.add_zero]
    split <;> omega

/-- The recurrence looks at the two strings only through the lowercased bytes of the
prefixes it is asked about. -/
theorem osaRec_congr (a b a' b' : CString) : ∀ n i j, i + j = n →
    (∀ k, k < i → tolower (a.getD k 0) = tolower (a'.getD k 0)) →
    (∀ k, k < j → tolower (b.getD k 0) = tolower (b'.getD k 0)) →
    osaRec a b i j = osaRec a' b' i j := by
  intro n
  induction n using Nat.strong_induction_on with
  | _ n ih =>
    intro i j hn ha hb
    cases i with
    | zero => rw [osaRec_zero_left, osaRec_zero_left]
    | succ i =>
      cases j with
      | zero => rw [osaRec_zero_right, osaRec_zero_right]
      | succ j =>
        have r1 := ih (i + (j + 1)) (by omega) i (j + 1) rfl
          (fun k hk => ha k (by omega)) hb
        have r2 := ih (i + 1 + j) (by omega) (i + 1) j rfl ha
          (fun k hk => hb k (by omega))
        have r3 := ih (i + j) (by omega) i j rfl
          (fun k hk => ha k (by omega)) (fun k hk => hb k (by omega))
        have r4 := ih (i - 1 + (j - 1)) (by omega) (i - 1) (j - 1) rfl
          (fun k hk => ha k (by omega)) (fun k hk => hb k (by omega))
        rw [osaRec_succ_succ a b, osaRec_succ_succ a' b', r1, r2, r3, r4,
          ha i (by omega), hb j (by omega)]
        by_cases hpos : 0 < i ∧ 0 < j
        · rw [ha (i - 1) (by omega), hb (j - 1) (by omega)]
        · have hl : ¬ (0 < i ∧ 0 < j ∧ tolower (a'.getD i 0) = tolower (b.getD (j - 1) 0)
              ∧ tolower (a.getD (i - 1) 0) = tolower (b'.getD j 0)) :=
            fun h => hpos ⟨h.1, h.2.1⟩
          have hr : ¬ (0 < i ∧ 0 < j ∧ tolower (a'.getD i 0) = tolower (b'.getD (j - 1) 0)
              ∧ tolower (a'.getD (i - 1) 0) = tolower (b'.getD j 0)) :=
            fun h => hpos ⟨h.1, h.2.1⟩
          rw [if_neg hl, if_neg hr]

theorem tolower_tolower (c : Nat) : tolower (tolower c) = tolower c := by
  unfold tolower; split_ifs <;> omega

theorem tolower_getD_map (a : CString) (k : Nat) :
    tolower ((a.map tolower).getD k 0) = tolower (a.getD k 0) := by
  have h0 : tolower 0 = 0 := by decide
  have := List.getD_map (f := tolower) (l := a) (d := 0) (n := k)
  rw [h0] at this
  rw [this, tolower_tolower]

theorem osaRec_map_tolower (a b : CString) (i j : Nat) :
    osaRec (a.map tolower) (b.map tolower) i j = osaRec a b i j :=
  osaRec_congr _ _ _ _ (i + j) i j rfl (fun k _ => tolower_getD_map a k)
    (fun k _ => tolower_getD_map b k)

/-! ### The recurrence is the least cost of an alignment -/

theorem osaRec_le_delete (x y : CString) (i j : Nat) :
    osaRec x y (i + 1) j ≤ osaRec x y i j + 1 := by
  cases j with
  | zero => rw [osaRec_zero_right, osaRec_zero_right]
  | succ j => rw [osaRec_succ_succ]; split <;> omega

theorem osaRec_le_insert (x y : CString) (i j : Nat) :
    osaRec x y i (j + 1) ≤ osaRec x y i j + 1 := by
  rw [osaRec_symm x y _ i (j + 1) rfl, osaRec_symm x y _ i j rfl]
  exact osaRec_le_delete y x j i

theorem osaRec_le_diag (x y : CString) (i j : Nat) :
    osaRec x y (i + 1) (j + 1) ≤
      osaRec x y i j + if tolower (x.getD i 0) ≠ tolower (y.getD j 0) then 1 else 0 := by
  rw [osaRec_succ_succ]; split <;> omega

theorem osaRec_le_transpose (x y : CString) (i j : Nat)
    (h1 : tolower (x.getD (i + 1) 0) = tolower (y.getD j 0))
    (h2 : tolower (x.getD i 0) = tolower (y.getD (j + 1) 0)) :
    osaRec x y (i + 2) (j + 2) ≤ osaRec x y i j + 1 := by
  have hc : 0 < i + 1 ∧ 0 < j + 1 ∧
      tolower (x.getD (i + 1) 0) = tolower (y.getD (j + 1 - 1) 0) ∧
      tolower (x.getD (i + 1 - 1) 0) = tolower (y.getD (j + 1) 0) :=
    ⟨by omega, by omega, h1, h2⟩
  rw [osaRec_succ_succ x y (i + 1) (j + 1), if_pos hc]
  simp only [Nat.add_sub_cancel]
  omega

theorem osaRec_append (u v s t : CString) :
    osaRec (u ++ s) (v ++ t) u.length v.length = osaRec u v u.length v.length :=
  osaRec_congr _ _ _ _ _ _ _ rfl
    (fun k hk => by rw [List.getD_append _ _ _ _ hk])
    (fun k hk => by rw [List.getD_append _ _ _ _ hk])

theorem getD_append_length (u s : CString) (k : Nat) :
    (u ++ s).getD (u.length + k) 0 = s.getD k 0 := by
  rw [List.getD_append_right _ _ _ _ (by omega)]
  congr 1; omega

/-- No alignment is cheaper than the value of the recurrence. -/
theorem osaRec_le_of_alignment {u v : CString} {m : Nat} (h : Alignment u v m) :
    osaRec u v u.length v.length ≤ m := by
  induction h with
  | nil => simp [osaRec_zero_left]
  | @delete u v n c _ ih =>
    have h1 := osaRec_le_delete (u ++ [c]) v u.length v.length
    have h2 := osaRec_append u v [c] []
    simp only [List.append_nil] at h2
    simp only [List.length_append, List.length_singleton]
    omega
  | @insert u v n c _ ih =>
    have h1 := osaRec_le_insert u (v ++ [c]) u.length v.length
    have h2 := osaRec_append u v [] [c]
    simp only [List.append_nil] at h2
    simp only [List.length_append, List.length_singleton]
    omega
  | @keep u v n c _ ih =>
    have h1 := osaRec_le_diag (u ++ [c]) (v ++ [c]) u.length v.length
    have h2 := osaRec_append u v [c] [c]
    have e1 := getD_append_length u [c] 0
    have e2 := getD_append_length v [c] 0
    simp only [Nat.add_zero, List.getD_cons_zero] at e1 e2
    rw [e1, e2] at h1
    simp only [ne_eq, not_true_eq_false, if_false] at h1
    simp only [List.length_append, List.length_singleton]
    omega
  | @substitute u v n c d _ ih =>
    have h1 := osaRec_le_diag (u ++ [c]) (v ++ [d]) u.length v.length
    have h2 := osaRec_append u v [c] [d]
    have h3 : (if tolower ((u ++ [c]).getD u.length 0) ≠ tolower ((v ++ [d]).getD v.length 0)
        then 1 else 0) ≤ 1 := by split <;> omega
    simp only [List.length_append, List.length_singleton]
    omega
  | @transpose u v n c d _ ih =>
    have e1 := getD_append_length u [c, d] 0
    have e2 := getD_append_length u [c, d] 1
    have e3 := getD_append_length v [d, c] 0
    have e4 := getD_append_length v [d, c] 1
    simp only [Nat.add_zero, List.getD_cons_zero, List.getD_cons_succ] at e1 e2 e3 e4
    have h1 := osaRec_le_transpose (u ++ [c, d]) (v ++ [d, c]) u.length v.length
      (by rw [e2, e3]) (by rw [e1, e4])
    have h2 := osaRec_append u v [c, d] [d, c]
    have l1 : (u ++ [c, d]).length = u.length + 2 := by simp
    have l2 : (v ++ [d, c]).length = v.length + 2 := by simp
    rw [l1, l2]
    omega

theorem take_succ_getD (x : CString) (i : Nat) (h : i < x.length) :
    x.take (i + 1) = x.take i ++ [x.getD i 0] := by
  rw [List.take_succ, getElem?_eq_getD h]; rfl

theorem take_succ_succ_getD (x : CString) (i : Nat) (h : i + 1 < x.length) :
    x.take (i + 2) = x.take i ++ [x.getD i 0, x.getD (i + 1) 0] := by
  rw [take_succ_getD x (i + 1) h, take_succ_getD x i (by omega)]
  simp

theorem tolower_getD_of_lowered (x : CString) (hx : ∀ c ∈ x, tolower c = c) (k : Nat)
    (h : k < x.length) : tolower (x.getD k 0) = x.getD k 0 := by
  apply hx
  rw [List.getD_eq_getElem _ _ h]
  exact List.getElem_mem h

theorem alignment_insert_all (y : CString) :
    ∀ j, j ≤ y.length → Alignment [] (y.take j) j := by
  intro j
  induction j with
  | zero => intro _; exact Alignment.nil
  | succ j ih =>
    intro hj
    rw [take_succ_getD y j (by omega)]
    exact Alignment.insert _ (ih (by omega))

theorem alignment_delete_all (x : CString) :
    ∀ i, i ≤ x.length → Alignment (x.take i) [] i := by
  intro i
  induction i with
  | zero => intro _; exact Alignment.nil
  | succ i ih =>
    intro hi
    rw [take_succ_getD x i (by omega)]
    exact Alignment.delete _ (ih (by omega))

/-- On strings without capital letters the value of the recurrence is the cost of an
alignment of the two prefixes. -/
theorem alignment_osaRec (x y : CString) (hx : ∀ c ∈ x, tolower c = c)
    (hy : ∀ c ∈ y, tolower c = c) :
    ∀ n i j, i + j = n → i ≤ x.length → j ≤ y.length →
      Alignment (x.take i) (y.take j) (osaRec x y i j) := by
  intro n
  induction n using Nat.strong_induction_on with
  | _ n ih =>
    intro i j hn hi hj
    cases i with
    | zero =>
      rw [osaRec_zero_left]; exact alignment_insert_all y j hj
    | succ i =>
      cases j with
      | zero => rw [osaRec_zero_right]; exact alignment_delete_all x (i + 1) hi
      | succ j =>
        have hA := ih (i + (j + 1)) (by omega) i (j + 1) rfl (by omega) hj
        have hB := ih (i + 1 + j) (by omega) (i + 1) j rfl hi (by omega)
        have hC := ih (i + j) (by omega) i j rfl (by omega) (by omega)
        have cA : Alignment (x.take (i + 1)) (y.take (j + 1)) (osaRec x y i (j + 1) + 1) := by
          rw [take_succ_getD x i (by omega)]
          exact Alignment.delete _ hA
        have cB : Alignment (x.take (i + 1)) (y.take (j + 1)) (osaRec x y (i + 1) j + 1) := by
          rw [take_succ_getD y j (by omega)]
          exact Alignment.insert _ hB
        have cC : Alignment (x.take (i + 1)) (y.take (j + 1)) (osaRec x y i j +
            if tolower (x.getD i 0) ≠ tolower (y.getD j 0) then 1 else 0) := by
          rw [take_succ_getD x i (by omega), take_succ_getD y j (by omega)]
          by_cases e : tolower (x.getD i 0) = tolower (y.getD j 0)
          · have e' : x.getD i 0 = y.getD j 0 := by
              rw [← tolower_getD_of_lowered x hx i (by omega),
                ← tolower_getD_of_lowered y hy j (by omega)]
              exact e
            simp only [ne_eq, e, not_true_eq_false, if_false, Nat.add_zero]
            rw [e']
            exact Alignment.keep _ hC
          · simp only [ne_eq, e, not_false_eq_true, if_true]
            exact Alignment.substitute _ _ hC
        have cBest : Alignment (x.take (i + 1)) (y.take (j + 1))
            (min (osaRec x y i (j + 1) + 1) (min (osaRec x y (i + 1) j + 1)
              (osaRec x y i j + if tolower (x.getD i 0) ≠ tolower (y.getD j 0) then 1 else 0))) := by
          rcases min_choice (osaRec x y i (j + 1) + 1) (min (osaRec x y (i + 1) j + 1)
              (osaRec x y i j + if tolower (x.getD i 0) ≠ tolower (y.getD j 0) then 1 else 0))
            with h | h
          · rw [h]; exact cA
          · rw [h]
            rcases min_choice (osaRec x y (i + 1) j + 1)
              (osaRec x y i j + if tolower (x.getD i 0) ≠ tolower (y.getD j 0) then 1 else 0)
              with h' | h'
            · rw [h']; exact cB
            · rw [h']; exact cC
        rw [osaRec_succ_succ]
        split
        · rename_i hc
          obtain ⟨hi0, hj0, hc1, hc2⟩ := hc
          obtain ⟨i, rfl⟩ : ∃ k, i = k + 1 := ⟨i - 1, by omega⟩
          obtain ⟨j, rfl⟩ : ∃ k, j = k + 1 := ⟨j - 1, by omega⟩
          simp only [Nat.add_sub_cancel] at hc1 hc2 ⊢
          have hD := ih (i + j) (by omega) i j rfl (by omega) (by omega)
          have cD : Alignment (x.take (i + 1 + 1)) (y.take (j + 1 + 1)) (osaRec x y i j + 1) := by
            rw [take_succ_succ_getD x i (by omega), take_succ_succ_getD y j (by omega)]
            have e1 : y.getD j 0 = x.getD (i + 1) 0 := by
              rw [← tolower_getD_of_lowered x hx (i + 1) (by omega),
                ← tolower_getD_of_lowered y hy j (by omega)]
              exact hc1.symm
            have e2 : y.getD (j + 1) 0 = x.getD i 0 := by
              rw [← tolower_getD_of_lowered x hx i (by omega),
                ← tolower_getD_of_lowered y hy (j + 1) (by omega)]
              exact hc2.symm
            rw [e1, e2]
            exact Alignment.transpose _ _ hD
          rcases min_choice (min (osaRec x y (i + 1) (j + 1 + 1) + 1)
              (min (osaRec x y (i + 1 + 1) (j + 1) + 1) (osaRec x y (i + 1) (j + 1) +
                if tolower (x.getD (i + 1) 0) ≠ tolower (y.getD (j + 1) 0) then 1 else 0)))
              (osaRec x y i j + 1) with h | h
          · rw [h]; exact cBest
          · rw [h]; exact cD
        · exact cBest

/-! ### Alignments are edit sequences -/

theorem EditStep.step_append_right {s t : CString} (w : CString) (h : EditStep s t) :
    EditStep (s ++ w) (t ++ w) := by
  cases h with
  | insert u v c =>
    have := EditStep.insert u (v ++ w) c
    simpa [List.append_assoc] using this
  | delete u v c =>
    have := EditStep.delete u (v ++ w) c
    simpa [List.append_assoc] using this
  | substitute u v c d =>
    have := EditStep.substitute u (v ++ w) c d
    simpa [List.append_assoc] using this
  | transpose u v c d =>
    have := EditStep.transpose u (v ++ w) c d
    simpa [List.append_assoc] using this

theorem EditSeq.seq_append_right {n : Nat} {s t : CString} (w : CString) (h : EditSeq n s t) :
    EditSeq n (s ++ w) (t ++ w) := by
  induction h with
  | done s => exact EditSeq.done _
  | step hs _ ih => exact EditSeq.step (hs.step_append_right w) ih

theorem EditSeq.snoc {n : Nat} {s t u : CString} (h : EditSeq n s t) (hs : EditStep t u) :
    EditSeq (n + 1) s u := by
  induction h with
  | done s => exact EditSeq.step hs (EditSeq.done _)
  | step hs' _ ih => exact EditSeq.step hs' (ih hs)

/-- An alignment of cost `n` is a sequence of `n` edits. -/
theorem editSeq_of_alignment {s t : CString} {n : Nat} (h : Alignment s t n) :
    EditSeq n s t := by
  induction h with
  | nil => exact EditSeq.done _
  | @delete u v n c _ ih =>
    have h1 := ih.seq_append_right [c]
    have h2 : EditStep (v ++ [c]) v := by
      simpa using EditStep.delete v [] c
    exact h1.snoc h2
  | @insert u v n c _ ih =>
    have h2 : EditStep v (v ++ [c]) := by
      simpa using EditStep.insert v [] c
    exact ih.snoc h2
  | @keep u v n c _ ih => exact ih.seq_append_right [c]
  | @substitute u v n c d _ ih =>
    exact (ih.seq_append_right [c]).snoc (EditStep.substitute v [] c d)
  | @transpose u v n c d _ ih =>
    exact (ih.seq_append_right [c, d]).snoc (EditStep.transpose v [] c d)

/-! ### `mii_build`, as a step of the search functions -/

section Build

variable {Ptr W : Type}

/-- The calls of `mii_build` are added to the calls made before it, and neither its
status nor the state it leaves depends on them. -/
theorem mii_build_trace (e : Env Ptr W) (index : Ptr) (w : W) (t : List (Event Ptr)) :
    mii_build e index ⟨w, t⟩ =
      ((mii_build e index ⟨w, []⟩).1,
        ⟨(mii_build e index ⟨w, []⟩).2.world, t ++ (mii_build e index ⟨w, []⟩).2.trace⟩) := by
  generalize hb : mii_build e index ⟨w, []⟩ = b
  generalize hb' : mii_build e index ⟨w, t⟩ = b'
  simp only [mii_build, St.call, St.callVoid, St.callOut] at hb hb'
  generalize e.mii_modtable_init index w = w0 at hb hb'
  generalize e.mii_analysis_init w0 = a at hb hb'
  generalize e.mii_modtable_gen index a.2 = g at hb hb'
  generalize e.mii_modtable_analysis index g.2 = an at hb hb'
  generalize e.mii_modtable_export index an.2 = ex at hb hb'
  split_ifs at hb hb' <;> subst hb hb' <;> simp

/-- The search operations and the import are not among the calls of `mii_build`. -/
theorem mii_build_ops (e : Env Ptr W) (index : Ptr) (w : W) :
    ∀ ev ∈ (mii_build e index ⟨w, []⟩).2.trace,
      ev.op ≠ OpName.mii_modtable_import ∧ ev.op ≠ OpName.mii_modtable_search_exact ∧
      ev.op ≠ OpName.mii_modtable_search_similar ∧ ev.op ≠ OpName.mii_modtable_search_info := by
  generalize hb : mii_build e index ⟨w, []⟩ = b
  simp only [mii_build, St.call, St.callVoid, St.callOut] at hb
  generalize e.mii_modtable_init index w = w0 at hb
  generalize e.mii_analysis_init w0 = a at hb
  generalize e.mii_modtable_gen index a.2 = g at hb
  generalize e.mii_modtable_analysis index g.2 = an at hb
  generalize e.mii_modtable_export index an.2 = ex at hb
  split_ifs at hb <;> subst hb <;> simp

theorem mii_build_status (e : Env Ptr W) (index : Ptr) (s : St Ptr W) :
    (mii_build e index s).1 = 0 ∨ (mii_build e index s).1 = -1 := by
  simp only [mii_build]
  split_ifs <;> simp

end Build

section Search

variable {Ptr W : Type}

/-- The three search functions meet the contract, whatever their search operation. -/
theorem searchWith_contract (e : Env Ptr W) (op : OpName)
    (search : Ptr → CString → Ptr → W → Int × W)
    (hop : op = OpName.mii_modtable_search_exact ∨ op = OpName.mii_modtable_search_similar ∨
      op = OpName.mii_modtable_search_info) :
    SearchContract e op search (searchWith op search e) := by
  intro index bindex res cmd w
  have hops := mii_build_ops e bindex (e.mii_modtable_import index (e.mii_modtable_init index w)).2
  have hst := mii_build_status e bindex
    ⟨(e.mii_modtable_import index (e.mii_modtable_init index w)).2, []⟩
  simp only [searchWith, St.call, St.callVoid]
  rw [mii_build_trace e bindex _ (_ ++ _)]
  generalize e.mii_modtable_init index w = w0 at hops hst ⊢
  generalize e.mii_modtable_import index w0 = i1 at hops hst ⊢
  generalize mii_build e bindex ⟨i1.2, []⟩ = b at hops hst ⊢
  generalize e.mii_modtable_import index b.2.world = i2
  have hfil : b.2.trace.filter (fun ev => decide (ev.op = op)) = [] := by
    rw [List.filter_eq_nil_iff]
    intro ev hev
    have := hops ev hev
    rcases hop with rfl | rfl | rfl <;> simp [this]
  generalize hs1 : search index cmd res i1.2 = s1
  generalize hs2 : search index cmd res i2.2 = s2
  rcases hop with rfl | rfl | rfl <;>
    (split_ifs <;> simp_all [List.filter_append, List.filter_cons])

end Search

/-! ### The recorded matrix -/

theorem set_cell {α : Type} {al bl : Nat} (l : List α) (i j : Nat) (v : α)
    (hlen : l.length = (al + 1) * (bl + 1)) (hi : i ≤ al) (hj : j ≤ bl) :
    i * (bl + 1) + j < l.length ∧
    (l.set (i * (bl + 1) + j) v)[i * (bl + 1) + j]? = some v ∧
    ∀ p q, q ≤ bl → ¬ (p = i ∧ q = j) →
      (l.set (i * (bl + 1) + j) v)[p * (bl + 1) + q]? = l[p * (bl + 1) + q]? := by
  have hlt : i * (bl + 1) + j < l.length := by rw [hlen]; exact cell_lt hi hj
  refine ⟨hlt, ?_, ?_⟩
  · simp [List.getElem?_set, hlt]
  · intro p q hq hne
    have hidx : i * (bl + 1) + j ≠ p * (bl + 1) + q := by
      intro h
      have := cell_inj (w := bl + 1) (by omega) (by omega) h
      exact hne ⟨this.1.symm, this.2.symm⟩
    simp [List.getElem?_set, hidx]

/-- A read of a written cell of the table succeeds and is recorded. -/
theorem TracedInv.read_cell {a b : CString} {done : Nat → Nat → Prop} {t : Traced}
    (h : TracedInv a b done t) (p q v : Nat) (f : Bool) (hp : p ≤ a.length)
    (hq : q ≤ b.length) (hc : t.cells[p * (b.length + 1) + q]? = some (some ⟨v, f⟩))
    (hf : f = true ∨ (p = 0 ∧ q = 0)) :
    ∃ t', t.read (p * (b.length + 1) + q) = some (v, t') ∧
      t'.cells = t.cells ∧ TracedInv a b done t' := by
  refine ⟨{ t with reads := t.reads ++ [(p * (b.length + 1) + q, f)] }, ?_, rfl,
    h.1, h.2.1, ?_⟩
  · simp only [Traced.read, hc]
  · intro r hr
    rcases List.mem_append.mp hr with hr | hr
    · exact h.2.2 r hr
    · rw [List.mem_singleton.mp hr]
      exact ⟨p, q, hp, hq, rfl, hf⟩

/-- A read of a finished cell succeeds, yields the recurrence and is recorded. -/
theorem TracedInv.read_done {a b : CString} {done : Nat → Nat → Prop} {t : Traced}
    (h : TracedInv a b done t) (p q : Nat) (hp : p ≤ a.length) (hq : q ≤ b.length)
    (hd : done p q) :
    ∃ t', t.read (p * (b.length + 1) + q) = some (osaRec a b p q, t') ∧
      t'.cells = t.cells ∧ TracedInv a b done t' := by
  obtain ⟨f, hc, hf⟩ := h.2.1 p q hp hq hd
  exact h.read_cell p q _ f hp hq hc hf

/-- Storing the value of the recurrence in a cell extends the finished region by it. -/
theorem TracedInv.write_done {a b : CString} {done : Nat → Nat → Prop} {t : Traced}
    (h : TracedInv a b done t) (i j : Nat) (hi : i ≤ a.length) (hj : j ≤ b.length) :
    ∃ t', t.write (i * (b.length + 1) + j) (osaRec a b i j) = some t' ∧
      TracedInv a b (fun p q => done p q ∨ (p = i ∧ q = j)) t' := by
  obtain ⟨hlt, h3, h4⟩ := set_cell t.cells i j (some ⟨osaRec a b i j, true⟩) h.1 hi hj
  refine ⟨{ t with cells := t.cells.set (i * (b.length + 1) + j) (some ⟨osaRec a b i j, true⟩) },
    by simp only [Traced.write, if_pos hlt], by simpa using h.1, ?_, h.2.2⟩
  intro p q hp hq hd
  by_cases hpq : p = i ∧ q = j
  · rw [hpq.1, hpq.2]; exact ⟨true, h3, Or.inl rfl⟩
  · show ∃ f, (t.cells.set _ _)[p * (b.length + 1) + q]? = _ ∧ _
    rw [h4 p q hq hpq]
    rcases hd with hd | hd
    · exact h.2.1 p q hp hq hd
    · exact absurd hd hpq

/-- A write to a cell that is not finished keeps the finished region. -/
theorem TracedInv.write_unfinished {a b : CString} {done : Nat → Nat → Prop} {t : Traced}
    (h : TracedInv a b done t) (i j v : Nat) (hi : i ≤ a.length) (hj : j ≤ b.length)
    (hnot : ¬ done i j) :
    ∃ t', t.write (i * (b.length + 1) + j) v = some t' ∧
      t'.cells[i * (b.length + 1) + j]? = some (some ⟨v, true⟩) ∧ TracedInv a b done t' := by
  obtain ⟨hlt, h3, h4⟩ := set_cell t.cells i j (some ⟨v, true⟩) h.1 hi hj
  refine ⟨{ t with cells := t.cells.set (i * (b.length + 1) + j) (some ⟨v, true⟩) },
    by simp only [Traced.write, if_pos hlt], h3, by simpa using h.1, ?_, h.2.2⟩
  intro p q hp hq hd
  have hpq : ¬ (p = i ∧ q = j) := by
    rintro ⟨rfl, rfl⟩; exact hnot hd
  show ∃ f, (t.cells.set _ _)[p * (b.length + 1) + q]? = _ ∧ _
  rw [h4 p q hq hpq]
  exact h.2.1 p q hp hq hd

theorem TracedInv.weaken {a b : CString} {done done' : Nat → Nat → Prop} {t : Traced}
    (h : TracedInv a b done t)
    (hsub : ∀ p q, p ≤ a.length → q ≤ b.length → done' p q → done p q) :
    TracedInv a b done' t :=
  ⟨h.1, fun p q hp hq hd => h.2.1 p q hp hq (hsub p q hp hq hd), h.2.2⟩

/-- One cell of the table, on the recorded matrix: when everything above and to the left
of `(i, j)` is finished, the body of the inner loop succeeds, reads only written cells of
the table and leaves the recurrence in `(i, j)` too. -/
theorem cellStepTraced_spec {a b : CString} {t : Traced} (i j : Nat)
    (hi1 : 1 ≤ i) (hi : i ≤ a.length) (hj1 : 1 ≤ j) (hj : j ≤ b.length)
    (h : TracedInv a b (fun p q => p = 0 ∨ q = 0 ∨ p < i ∨ (p = i ∧ q < j)) t) :
    ∃ t', cellStepTraced a b b.length i j t = some t' ∧
      TracedInv a b (fun p q => p = 0 ∨ q = 0 ∨ p < i ∨ (p = i ∧ q < j + 1)) t' := by
  obtain ⟨i, rfl⟩ : ∃ k, i = k + 1 := ⟨i - 1, by omega⟩
  obtain ⟨j, rfl⟩ : ∃ k, j = k + 1 := ⟨j - 1, by omega⟩
  obtain ⟨t1, e1, -, h1⟩ := h.read_done i (j + 1) (by omega) hj (by right; right; left; omega)
  obtain ⟨t2, e2, -, h2⟩ := h1.read_done (i + 1) j hi (by omega)
    (by right; right; right; exact ⟨rfl, by omega⟩)
  obtain ⟨t3, e3, -, h3⟩ := h2.read_done i j (by omega) (by omega)
    (by right; right; left; omega)
  have e1' : t.read ((i + 1 - 1) * (b.length + 1) + (j + 1))
      = some (osaRec a b i (j + 1), t1) := by simpa using e1
  have e2' : t1.read ((i + 1) * (b.length + 1) + (j + 1) - 1)
      = some (osaRec a b (i + 1) j, t2) := by simpa using e2
  have e3' : t2.read ((i + 1 - 1) * (b.length + 1) + (j + 1) - 1)
      = some (osaRec a b i j, t3) := by simpa using e3
  have ea : a[i + 1 - 1]? = some (a.getD i 0) := by
    simpa using getElem?_eq_getD (l := a) (k := i) (by omega)
  have eb : b[j + 1 - 1]? = some (b.getD j 0) := by
    simpa using getElem?_eq_getD (l := b) (k := j) (by omega)
  have hnot : ¬ (fun p q => p = 0 ∨ q = 0 ∨ p < i + 1 ∨ (p = i + 1 ∧ q < j + 1)) (i + 1) (j + 1) := by
    simp
  have hsub : ∀ p q, p ≤ a.length → q ≤ b.length →
      (p = 0 ∨ q = 0 ∨ p < i + 1 ∨ (p = i + 1 ∧ q < j + 1 + 1)) →
      ((p = 0 ∨ q = 0 ∨ p < i + 1 ∨ (p = i + 1 ∧ q < j + 1)) ∨ (p = i + 1 ∧ q = j + 1)) := by
    intro p q _ _ hd; omega
  by_cases hc : 0 < i ∧ 0 < j ∧ tolower (a.getD i 0) = tolower (b.getD (j - 1) 0)
      ∧ tolower (a.getD (i - 1) 0) = tolower (b.getD j 0)
  · obtain ⟨hi0, hj0, hc1, hc2⟩ := hc
    have eb2 : b[j + 1 - 2]? = some (b.getD (j - 1) 0) := by
      simpa using getElem?_eq_getD (l := b) (k := j - 1) (by omega)
    have ea2 : a[i + 1 - 2]? = some (a.getD (i - 1) 0) := by
      simpa using getElem?_eq_getD (l := a) (k := i - 1) (by omega)
    obtain ⟨t4, w4, c4, h4⟩ := h3.write_unfinished (i + 1) (j + 1)
      (mii_min (osaRec a b i (j + 1) + 1) (mii_min (osaRec a b (i + 1) j + 1)
        (osaRec a b i j + if tolower (a.getD i 0) ≠ tolower (b.getD j 0) then 1 else 0)))
      hi hj hnot
    obtain ⟨t5, e5, -, h5⟩ := h4.read_cell (i + 1) (j + 1) _ true hi hj c4 (Or.inl rfl)
    obtain ⟨t6, e6, -, h6⟩ := h5.read_done (i - 1) (j - 1) (by omega) (by omega)
      (by right; right; left; omega)
    have e6' : t5.read ((i + 1 - 2) * (b.length + 1) + (j + 1) - 2)
        = some (osaRec a b (i - 1) (j - 1), t6) := by
      have hidx : (i + 1 - 2) * (b.length + 1) + (j + 1) - 2
          = (i - 1) * (b.length + 1) + (j - 1) := by
        have : i + 1 - 2 = i - 1 := by omega
        rw [this]; omega
      rw [hidx]; exact e6
    have hval : mii_min (mii_min (osaRec a b i (j + 1) + 1) (mii_min (osaRec a b (i + 1) j + 1)
        (osaRec a b i j + if tolower (a.getD i 0) ≠ tolower (b.getD j 0) then 1 else 0)))
        (osaRec a b (i - 1) (j - 1) + 1) = osaRec a b (i + 1) (j + 1) := by
      have hcond : 0 < i ∧ 0 < j ∧ tolower (a.getD i 0) = tolower (b.getD (j - 1) 0)
          ∧ tolower (a.getD (i - 1) 0) = tolower (b.getD j 0) := ⟨hi0, hj0, hc1, hc2⟩
      rw [osaRec_succ_succ, if_pos hcond]
      simp only [mii_min_eq]
    obtain ⟨t7, w7, h7⟩ := h6.write_done (i + 1) (j + 1) hi hj
    rw [← hval] at w7
    refine ⟨t7, ?_, h7.weaken hsub⟩
    have hgt : i + 1 > 1 ∧ j + 1 > 1 := by omega
    simp only [cellStepTraced, e1', e2', e3', ea, eb, eb2, ea2, w4, e5, e6', w7, if_pos hgt,
      if_pos hc1, if_pos hc2, Option.bind_eq_bind, Option.some_bind, Option.pure_def]
  · have hval : mii_min (osaRec a b i (j + 1) + 1) (mii_min (osaRec a b (i + 1) j + 1)
        (osaRec a b i j + if tolower (a.getD i 0) ≠ tolower (b.getD j 0) then 1 else 0))
        = osaRec a b (i + 1) (j + 1) := by
      rw [osaRec_succ_succ, if_neg hc]
      simp only [mii_min_eq]
    obtain ⟨t4, w4, h4⟩ := h3.write_done (i + 1) (j + 1) hi hj
    rw [← hval] at w4
    refine ⟨t4, ?_, h4.weaken hsub⟩
    by_cases hgt : i + 1 > 1 ∧ j + 1 > 1
    · have eb2 : b[j + 1 - 2]? = some (b.getD (j - 1) 0) := by
        simpa using getElem?_eq_getD (l := b) (k := j - 1) (by omega)
      by_cases hc1 : tolower (a.getD i 0) = tolower (b.getD (j - 1) 0)
      · have ea2 : a[i + 1 - 2]? = some (a.getD (i - 1) 0) := by
          simpa using getElem?_eq_getD (l := a) (k := i - 1) (by omega)
        have hc2 : ¬ tolower (a.getD (i - 1) 0) = tolower (b.getD j 0) := by
          intro hc2; exact hc ⟨by omega, by omega, hc1, hc2⟩
        simp only [cellStepTraced, e1', e2', e3', ea, eb, eb2, ea2, w4, if_pos hgt, if_pos hc1,
          if_neg hc2, Option.bind_eq_bind, Option.some_bind, Option.pure_def]
      · simp only [cellStepTraced, e1', e2', e3', ea, eb, eb2, w4, if_pos hgt, if_neg hc1,
          Option.bind_eq_bind, Option.some_bind, Option.pure_def]
    · simp only [cellStepTraced, e1', e2', e3', ea, eb, w4, if_neg hgt,
        Option.bind_eq_bind, Option.some_bind, Option.pure_def]

/-- The run on the recorded matrix returns the recurrence, and all its reads are of
written cells of the table. -/
theorem mii_levenshtein_distance_traced_spec (malloc : Nat → Bool) (a b : CString)
    (hfit : TableFits malloc a b) :
    ∃ reads, mii_levenshtein_distance_traced malloc a b
        = some (osaRec a b a.length b.length, reads) ∧
      ReadsInTable a b reads := by
  obtain ⟨g1, g2, g3, g4, g5⟩ := tableFits_guards hfit
  have g6 := hfit.2
  have h0 : TracedInv a b (fun p q => q = 0 ∧ p < 1)
      { cells := List.replicate ((a.length + 1) * (b.length + 1)) (some ⟨0, false⟩),
        reads := [] } := by
    refine ⟨by simp, ?_, ?_⟩
    · rintro p q _ _ ⟨rfl, hp⟩
      have hp0 : p = 0 := by omega
      subst hp0
      have hpos : 0 < (a.length + 1) * (b.length + 1) := Nat.mul_pos (by omega) (by omega)
      exact ⟨false, by simp [osaRec_zero_left, List.getElem?_replicate, hpos], Or.inr ⟨rfl, rfl⟩⟩
    · intro r hr; simp at hr
  obtain ⟨m1, e1, h1⟩ := forLoop_inv (fun i (t : Traced) => t.write ((b.length + 1) * i) i)
    (fun i t => TracedInv a b (fun p q => q = 0 ∧ p < i) t) 1 a.length _ (by omega) h0
    (by
      intro k t _ hk ht
      obtain ⟨t', w, hw⟩ := ht.write_done k 0 hk (by omega)
      rw [osaRec_zero_right, Nat.add_zero, Nat.mul_comm] at w
      exact ⟨t', w, hw.weaken (by intro p q _ _ hd; omega)⟩)
  obtain ⟨m2, e2, h2⟩ := forLoop_inv (fun i (t : Traced) => t.write i i)
    (fun i t => TracedInv a b (fun p q => q = 0 ∨ (p = 0 ∧ q < i)) t) 1 b.length m1 (by omega)
    (h1.weaken (by intro p q _ _ hd; omega))
    (by
      intro k t _ hk ht
      obtain ⟨t', w, hw⟩ := ht.write_done 0 k (by omega) hk
      rw [osaRec_zero_left, Nat.zero_mul, Nat.zero_add] at w
      exact ⟨t', w, hw.weaken (by intro p q _ _ hd; omega)⟩)
  obtain ⟨m3, e3, h3⟩ := forLoop_inv
    (fun i t => forLoop 1 b.length (fun j t => cellStepTraced a b b.length i j t) t)
    (fun i t => TracedInv a b (fun p q => p = 0 ∨ q = 0 ∨ p < i) t) 1 a.length m2 (by omega)
    (h2.weaken (by intro p q _ _ hd; omega))
    (by
      intro i t hi1 hi ht
      obtain ⟨t', et', ht'⟩ := forLoop_inv (fun j t => cellStepTraced a b b.length i j t)
        (fun j t => TracedInv a b (fun p q => p = 0 ∨ q = 0 ∨ p < i ∨ (p = i ∧ q < j)) t)
        1 b.length t (by omega) (ht.weaken (by intro p q _ _ hd; omega))
        (fun j u hj1 hj hu => cellStepTraced_spec i j hi1 hi hj1 hj hu)
      exact ⟨t', et', ht'.weaken (by intro p q _ hq hd; omega)⟩)
  have hlast : (a.length + 1) * (b.length + 1) - 1 = a.length * (b.length + 1) + b.length := by
    rw [Nat.succ_mul]; omega
  obtain ⟨m4, e4, -, h4⟩ := h3.read_done a.length b.length (Nat.le_refl _) (Nat.le_refl _)
    (by right; right; omega)
  refine ⟨m4.reads, ?_, h4.2.2⟩
  simp only [mii_levenshtein_distance_traced, g1, g2, g3, g4, g5, g6, if_true, e1, e2, e3,
    hlast, e4, Option.bind_eq_bind, Option.some_bind, Option.pure_def]

/-- The run on the recorded matrix is `none` when the table does not fit. -/
theorem mii_levenshtein_distance_traced_eq_none (malloc : Nat → Bool) (a b : CString)
    (hfit : ¬ TableFits malloc a b) :
    mii_levenshtein_distance_traced malloc a b = none := by
  by_cases h1 : a.length ≤ INT_MAX
  · by_cases h2 : b.length ≤ INT_MAX
    · by_cases h3 : a.length + 1 ≤ INT_MAX
      · by_cases h4 : b.length + 1 ≤ INT_MAX
        · by_cases h5 : (a.length + 1) * (b.length + 1) ≤ INT_MAX
          · have h6 : ¬ malloc ((a.length + 1) * (b.length + 1) * sizeof_int) = true :=
              fun h6 => hfit ⟨h5, h6⟩
            simp only [mii_levenshtein_distance_traced, strlen_int, int_add, int_mul,
              if_pos h1, if_pos h2, if_pos h3, if_pos h4, if_pos h5, if_neg h6,
              Option.bind_eq_bind, Option.some_bind, Option.none_bind]
          · simp only [mii_levenshtein_distance_traced, strlen_int, int_add, int_mul,
              if_pos h1, if_pos h2, if_pos h3, if_pos h4, if_neg h5, Option.bind_eq_bind,
              Option.some_bind, Option.none_bind]
        · simp only [mii_levenshtein_distance_traced, strlen_int, int_add, if_pos h1,
            if_pos h2, if_pos h3, if_neg h4, Option.bind_eq_bind,
            Option.some_bind, Option.none_bind]
      · simp only [mii_levenshtein_distance_traced, strlen_int, int_add, if_pos h1,
          if_pos h2, if_neg h3, Option.bind_eq_bind,
          Option.some_bind, Option.none_bind]
    · simp only [mii_levenshtein_distance_traced, strlen_int, if_pos h1,
        if_neg h2, Option.bind_eq_bind, Option.some_bind, Option.none_bind]
  · simp only [mii_levenshtein_distance_traced, strlen_int, if_neg h1,
      Option.bind_eq_bind, Option.none_bind]

/-! ### The recurrence, as the specification words it -/

theorem getD_map_tolower (a : CString) (k : Nat) :
    (a.map tolower).getD k 0 = tolower (a.getD k 0) := by
  have h0 : tolower 0 = 0 := by decide
  have := List.getD_map (f := tolower) (l := a) (d := 0) (n := k)
  rw [h0] at this
  exact this

/-- The function `osaRec` is a table of the recurrence on the lowercased strings. -/
theorem osaRec_isRecurrence (a b : CString) :
    OsaRecurrence (a.map tolower) (b.map tolower) (osaRec a b) := by
  refine ⟨fun i _ => osaRec_zero_right a b i, fun j _ => osaRec_zero_left a b j, ?_⟩
  intro i j hi1 _ hj1 _
  obtain ⟨i, rfl⟩ : ∃ k, i = k + 1 := ⟨i - 1, by omega⟩
  obtain ⟨j, rfl⟩ : ∃ k, j = k + 1 := ⟨j - 1, by omega⟩
  have hc : (1 < i + 1 ∧ 1 < j + 1 ∧
      tolower (a.getD i 0) = tolower (b.getD (j - 1) 0) ∧
      tolower (a.getD (i - 1) 0) = tolower (b.getD j 0)) ↔
      (0 < i ∧ 0 < j ∧ tolower (a.getD i 0) = tolower (b.getD (j - 1) 0)
      ∧ tolower (a.getD (i - 1) 0) = tolower (b.getD j 0)) := by
    constructor
    · rintro ⟨h1, h2, h3, h4⟩; exact ⟨by omega, by omega, h3, h4⟩
    · rintro ⟨h1, h2, h3, h4⟩; exact ⟨by omega, by omega, h3, h4⟩
  have e1 : i + 1 - 2 = i - 1 := by omega
  have e2 : j + 1 - 2 = j - 1 := by omega
  rw [osaRec_succ_succ]
  simp only [getD_map_tolower, Nat.add_sub_cancel, e1, e2, hc]

/-- The recurrence has one table only, on the prefixes of the two strings. -/
theorem osaRec_unique (a b : CString) (d : Nat → Nat → Nat)
    (hd : OsaRecurrence (a.map tolower) (b.map tolower) d) :
    ∀ n i j, i + j = n → i ≤ a.length → j ≤ b.length → d i j = osaRec a b i j := by
  have ho := osaRec_isRecurrence a b
  intro n
  induction n using Nat.strong_induction_on with
  | _ n ih =>
    intro i j hn hi hj
    by_cases hi0 : i = 0
    · subst hi0
      rw [hd.2.1 j (by simpa using hj), osaRec_zero_left]
    by_cases hj0 : j = 0
    · subst hj0
      rw [hd.1 i (by simpa using hi), osaRec_zero_right]
    have r1 := ih (i - 1 + j) (by omega) (i - 1) j rfl (by omega) hj
    have r2 := ih (i + (j - 1)) (by omega) i (j - 1) rfl hi (by omega)
    have r3 := ih (i - 1 + (j - 1)) (by omega) (i - 1) (j - 1) rfl (by omega) (by omega)
    have r4 := ih (i - 2 + (j - 2)) (by omega) (i - 2) (j - 2) rfl (by omega) (by omega)
    rw [hd.2.2 i j (by omega) (by simpa using hi) (by omega) (by simpa using hj),
      ho.2.2 i j (by omega) (by simpa using hi) (by omega) (by simpa using hj),
      r1, r2, r3, r4]


/-! ### Strings whose table does not fit -/

theorem not_tableFits_of_lt (malloc : Nat → Bool) (a b : CString)
    (h : INT_MAX < (a.length + 1) * (b.length + 1)) : ¬ TableFits malloc a b :=
  fun hfit => absurd hfit.1 (Nat.not_le.mpr h)

/-- Two strings of `n` and `m` bytes whose table has more than `INT_MAX` cells: the call
has no defined result, whatever `malloc` does. -/
theorem mii_levenshtein_distance_on_replicate (malloc : Nat → Bool) (n m x y : Nat)
    (h : INT_MAX < (n + 1) * (m + 1)) :
    mii_levenshtein_distance_on malloc (List.replicate n x) (List.replicate m y) = none :=
  mii_levenshtein_distance_on_eq_none malloc _ _
    (not_tableFits_of_lt malloc _ _ (by simpa only [List.length_replicate] using h))

theorem mii_levenshtein_distance_traced_replicate (malloc : Nat → Bool) (n m x y : Nat)
    (h : INT_MAX < (n + 1) * (m + 1)) :
    mii_levenshtein_distance_traced malloc (List.replicate n x) (List.replicate m y) = none :=
  mii_levenshtein_distance_traced_eq_none malloc _ _
    (not_tableFits_of_lt malloc _ _ (by simpa only [List.length_replicate] using h))

theorem replicate_ne_nil (n x : Nat) (h : 0 < n) : List.replicate n x ≠ [] := by
  intro he
  have := congrArg List.length he
  simp only [List.length_replicate, List.length_nil] at this
  omega

/-! ### The copy loop of `_mii_analysis_expand` -/

/-- The first word is copied within bounds: the output becomes that word and its NUL. -/
theorem expandLoop_first (word : CString) (rest : List CString) (i : Nat) :
    expandLoop (word :: rest) i none 0
      = expandLoop rest (i + 1) (some (word ++ [0])) word.length := by
  have h : memcpy (realloc [] (word.length + 1)) 0 (word ++ [0]) (word.length + 1)
      = some (word ++ [0]) := by
    simp [memcpy, realloc]
  simp only [expandLoop, Option.getD_none, Nat.zero_add, Nat.sub_self, h]

/-- Once the output is not empty, the copy of the next word goes out of bounds: it reads
`len + 1` bytes from a buffer of `wsize + 1` bytes and writes them from the offset
`len - wsize` into an output of `len + 1` bytes. -/
theorem expandLoop_fault (word : CString) (rest : List CString) (i : Nat)
    (output : Option (List Nat)) (len : Nat) (hlen : 0 < len) :
    expandLoop (word :: rest) i output len
      = .error ⟨i, len + word.length + 1, word.length + 1, len, len + word.length + 1⟩ := by
  have h : memcpy (realloc (output.getD []) (len + word.length + 1))
      len (word ++ [0]) (len + word.length + 1) = none := by
    have : ¬ (len + word.length + 1 ≤ (word ++ [0]).length ∧
        len + (len + word.length + 1)
          ≤ (realloc (output.getD []) (len + word.length + 1)).length) := by
      intro hc
      have := hc.1
      simp at this
      omega
    simp only [memcpy, if_neg this]
  simp only [expandLoop, Nat.add_sub_cancel, h]

/-- An expansion to a single word returns that word. -/
theorem expand_single (wordexp : CString → Option (List CString)) (expr word : CString)
    (h : wordexp expr = some [word]) :
    _mii_analysis_expand wordexp expr = .ok (some (word ++ [0])) := by
  simp only [_mii_analysis_expand, h]
  rw [expandLoop_first]
  rfl

/-- An expansion to several words, the first of them not empty, faults on the second. -/
theorem expand_several (wordexp : CString → Option (List CString)) (expr w1 w2 : CString)
    (rest : List CString) (h : wordexp expr = some (w1 :: w2 :: rest)) (h1 : w1 ≠ []) :
    _mii_analysis_expand wordexp expr
      = .error ⟨1, w1.length + w2.length + 1, w2.length + 1, w1.length,
          w1.length + w2.length + 1⟩ := by
  have hpos : 0 < w1.length := List.length_pos.mpr h1
  simp only [_mii_analysis_expand, h]
  rw [expandLoop_first]
  exact expandLoop_fault w2 rest 1 _ w1.length hpos

/-! ## The edit-distance matcher (`mii_levenshtein_distance`) -/

/-- C1, as stated, fails. On `"ca"` and `"abc"` the function returns 3, while two edits
(transpose `ca` to `ac`, then insert `b`) turn the one string into the other, so the
returned value is not the unrestricted Damerau-Levenshtein distance. And on two strings
of 46340 bytes the size of the table, 46341 * 46341, overflows `int`, which is undefined
in C: the call has no defined result, even on a machine where `malloc` does not fail. -/
theorem mii_levenshtein_distance_not_damerau :
    (∃ n, mii_levenshtein_distance (cstr "ca") (cstr "abc") = some n ∧
      ¬ IsEditDistance ((cstr "ca").map tolower) ((cstr "abc").map tolower) n) ∧
    mii_levenshtein_distance (List.replicate 46340 97) (List.replicate 46340 98) = none := by
  refine ⟨⟨3, by decide, ?_⟩, mii_levenshtein_distance_on_replicate _ _ _ _ _ (by decide)⟩
  intro h
  have e1 : (cstr "ca").map tolower = [99, 97] := by decide
  have e2 : (cstr "abc").map tolower = [97, 98, 99] := by decide
  rw [e1, e2] at h
  have s1 : EditStep [99, 97] [97, 99] := EditStep.transpose [] [] 99 97
  have s2 : EditStep [97, 99] [97, 98, 99] := EditStep.insert [97] [99] 98
  have := h.2 2 (EditSeq.step s1 (EditSeq.step s2 (EditSeq.done _)))
  omega

/-- C1, amended: for all strings `a` and `b` whose table fits (its `(|a|+1) * (|b|+1)`
cells are at most `INT_MAX` and `malloc` grants them) the function returns a value `n`
(every access in bounds) that is the optimal-string-alignment distance between the
lowercased strings: some alignment of them costs `n`, no alignment costs less, and `n`
single edits (insertions, deletions, substitutions, adjacent transpositions) turn the
one lowercased string into the other. -/
theorem mii_levenshtein_distance_alignment (malloc : Nat → Bool) (a b : CString)
    (hfit : TableFits malloc a b) :
    ∃ n, mii_levenshtein_distance_on malloc a b = some n ∧
      IsAlignmentDistance (a.map tolower) (b.map tolower) n ∧
      EditSeq n (a.map tolower) (b.map tolower) := by
  have hlow : ∀ s : CString, ∀ c ∈ s.map tolower, tolower c = c := by
    intro s c hc
    obtain ⟨d, _, rfl⟩ := List.mem_map.mp hc
    exact tolower_tolower d
  have hal := alignment_osaRec (a.map tolower) (b.map tolower) (hlow a) (hlow b) _
    (a.map tolower).length (b.map tolower).length rfl (Nat.le_refl _) (Nat.le_refl _)
  rw [List.take_length, List.take_length, osaRec_map_tolower] at hal
  simp only [List.length_map] at hal
  refine ⟨_, mii_levenshtein_distance_on_eq_osaRec malloc a b hfit, ⟨hal, ?_⟩,
    editSeq_of_alignment hal⟩
  intro m hm
  have := osaRec_le_of_alignment hm
  rw [osaRec_map_tolower] at this
  simpa only [List.length_map] using this

theorem mii_levenshtein_distance_alignment_witness :
    TableFits (fun _ => true) (cstr "ca") (cstr "abc") ∧
      ∃ n, mii_levenshtein_distance_on (fun _ => true) (cstr "ca") (cstr "abc") = some n ∧
        IsAlignmentDistance ((cstr "ca").map tolower) ((cstr "abc").map tolower) n ∧
        EditSeq n ((cstr "ca").map tolower) ((cstr "abc").map tolower) :=
  ⟨⟨by decide, rfl⟩,
    mii_levenshtein_distance_alignment (fun _ => true) (cstr "ca") (cstr "abc")
      ⟨by decide, rfl⟩⟩

/-- C3, as stated, fails: for the non-empty string of 46340 bytes `a` the size of the
table, 46341 * 46341, overflows `int`, which is undefined in C: the call on that string
and itself has no defined result, so not the result 0, even on a machine where `malloc`
does not fail. -/
theorem mii_levenshtein_distance_self_overflow :
    List.replicate 46340 97 ≠ [] ∧
    mii_levenshtein_distance (List.replicate 46340 97) (List.replicate 46340 97) = none ∧
    mii_levenshtein_distance (List.replicate 46340 97) (List.replicate 46340 97) ≠ some 0 := by
  have h : mii_levenshtein_distance (List.replicate 46340 97) (List.replicate 46340 97)
      = none := mii_levenshtein_distance_on_replicate _ _ _ _ _ (by decide)
  refine ⟨replicate_ne_nil _ _ (by decide), h, ?_⟩
  rw [h]
  exact fun hc => Option.noConfusion hc

/-- C3, amended: for every non-empty string `s` whose table fits (its `(|s|+1) * (|s|+1)`
cells are at most `INT_MAX` and `malloc` grants them), `mii_levenshtein_distance(s, s)`
is 0. -/
theorem mii_levenshtein_distance_self (malloc : Nat → Bool) (s : CString) (_hs : s ≠ [])
    (hfit : TableFits malloc s s) :
    mii_levenshtein_distance_on malloc s s = some 0 := by
  rw [mii_levenshtein_distance_on_eq_osaRec malloc s s hfit, osaRec_self]

theorem mii_levenshtein_distance_self_witness :
    cstr "gcc" ≠ [] ∧ TableFits (fun _ => true) (cstr "gcc") (cstr "gcc") ∧
      mii_levenshtein_distance_on (fun _ => true) (cstr "gcc") (cstr "gcc") = some 0 :=
  ⟨by decide, ⟨by decide, rfl⟩,
    mii_levenshtein_distance_self (fun _ => true) (cstr "gcc") (by decide)
      ⟨by decide, rfl⟩⟩

/-- C4, as stated, fails: the strings of 46340 bytes `A` and of 46340 bytes `a` differ
only in the case of ASCII letters, yet the size of their table, 46341 * 46341, overflows
`int`, which is undefined in C: the call has no defined result, so not the distance 0,
even on a machine where `malloc` does not fail. -/
theorem mii_levenshtein_distance_tolower_overflow :
    (List.replicate 46340 65).map tolower = (List.replicate 46340 97).map tolower ∧
    mii_levenshtein_distance (List.replicate 46340 65) (List.replicate 46340 97) = none ∧
    mii_levenshtein_distance (List.replicate 46340 65) (List.replicate 46340 97) ≠ some 0 := by
  have h : mii_levenshtein_distance (List.replicate 46340 65) (List.replicate 46340 97)
      = none := mii_levenshtein_distance_on_replicate _ _ _ _ _ (by decide)
  have e1 : tolower 65 = 97 := by decide
  have e2 : tolower 97 = 97 := by decide
  refine ⟨by rw [List.map_replicate, List.map_replicate, e1, e2], h, ?_⟩
  rw [h]
  exact fun hc => Option.noConfusion hc

/-- C4, amended: the distance is case-insensitive on ASCII. For all strings, and whatever
`malloc` does, the call on the two strings and the call on their lowercased forms
(`'A'..'Z'` to `'a'..'z'`, other bytes kept) are equal: each returns a value exactly when
the other does, and the same one. When the table fits, both calls return, and two
strings with the same lowercased form, such as `"GCC"` and `"gcc"`, are at distance 0. -/
theorem mii_levenshtein_distance_tolower (malloc : Nat → Bool) (a b : CString) :
    mii_levenshtein_distance_on malloc a b
        = mii_levenshtein_distance_on malloc (a.map tolower) (b.map tolower) ∧
    (TableFits malloc a b →
      (∃ n, mii_levenshtein_distance_on malloc a b = some n ∧
        mii_levenshtein_distance_on malloc (a.map tolower) (b.map tolower) = some n) ∧
      (a.map tolower = b.map tolower → mii_levenshtein_distance_on malloc a b = some 0)) := by
  have hiff : TableFits malloc (a.map tolower) (b.map tolower) ↔ TableFits malloc a b := by
    unfold TableFits
    simp only [List.length_map]
  have h1 : TableFits malloc a b →
      mii_levenshtein_distance_on malloc (a.map tolower) (b.map tolower)
        = some (osaRec a b a.length b.length) := by
    intro hfit
    rw [mii_levenshtein_distance_on_eq_osaRec malloc (a.map tolower) (b.map tolower)
      (hiff.mpr hfit), osaRec_map_tolower]
    simp only [List.length_map]
  refine ⟨?_, fun hfit => ⟨⟨_, mii_levenshtein_distance_on_eq_osaRec malloc a b hfit, h1 hfit⟩,
    fun h => ?_⟩⟩
  · by_cases hfit : TableFits malloc a b
    · rw [mii_levenshtein_distance_on_eq_osaRec malloc a b hfit, h1 hfit]
    · rw [mii_levenshtein_distance_on_eq_none malloc a b hfit,
        mii_levenshtein_distance_on_eq_none malloc _ _ (fun hc => hfit (hiff.mp hc))]
  · have hfit' := hiff.mpr hfit
    rw [mii_levenshtein_distance_on_eq_osaRec malloc a b hfit, ← h1 hfit]
    rw [h] at hfit' ⊢
    rw [mii_levenshtein_distance_on_eq_osaRec malloc _ _ hfit', osaRec_self]

theorem mii_levenshtein_distance_tolower_witness :
    TableFits (fun _ => true) (cstr "GCC") (cstr "gcc") ∧
      (cstr "GCC").map tolower = (cstr "gcc").map tolower ∧
      mii_levenshtein_distance_on (fun _ => true) (cstr "GCC") (cstr "gcc") = some 0 :=
  ⟨⟨by decide, rfl⟩, by decide,
    ((mii_levenshtein_distance_tolower (fun _ => true) (cstr "GCC") (cstr "gcc")).2
      ⟨by decide, rfl⟩).2 (by decide)⟩

set_option maxRecDepth 100000 in
/-- C5: `mii_levenshtein_distance("gcc", "gco")` is 1 and
`mii_levenshtein_distance("python3", "python")` is 1. -/
theorem mii_levenshtein_distance_examples :
    mii_levenshtein_distance (cstr "gcc") (cstr "gco") = some 1 ∧
      mii_levenshtein_distance (cstr "python3") (cstr "python") = some 1 := by
  constructor <;> decide

set_option maxRecDepth 100000 in
/-- C6: with the threshold `MII_MODTABLE_DISTANCE_THRESHOLD` (4), the command `"gcc9"` is
within the threshold of the query `"gcc"`, at distance 1, and the command
`"completely-unrelated-name"` is not, at distance 25. -/
theorem mii_levenshtein_distance_threshold :
    MII_MODTABLE_DISTANCE_THRESHOLD = 4 ∧
    mii_levenshtein_distance (cstr "gcc") (cstr "gcc9") = some 1 ∧
      1 ≤ MII_MODTABLE_DISTANCE_THRESHOLD ∧
    mii_levenshtein_distance (cstr "gcc") (cstr "completely-unrelated-name") = some 25 ∧
      25 > MII_MODTABLE_DISTANCE_THRESHOLD := by
  refine ⟨rfl, ?_, ?_, ?_, ?_⟩ <;> decide

/-! ## Build, sync and search (`mii.c`) -/

/-- C7, as stated, fails: when the analysis succeeds with a count of 0 and the
preanalysis changes nothing, `mii_build` still exports (and here returns -1, the export
failing) while `mii_sync` skips the export and returns 0. -/
theorem mii_build_sync_differ :
    (∀ p w, ((stubEnv 0 0 1).mii_modtable_preanalysis p w).2 = w) ∧
    (mii_build (stubEnv 0 0 1) () ⟨(), []⟩).1 = -1 ∧
    (mii_sync (stubEnv 0 0 1) () ⟨(), []⟩).1 = 0 ∧
    withoutPreanalysis (mii_sync (stubEnv 0 0 1) () ⟨(), []⟩).2.trace
      ≠ (mii_build (stubEnv 0 0 1) () ⟨(), []⟩).2.trace := by
  refine ⟨fun _ _ => rfl, ?_, ?_, ?_⟩ <;> decide

/-- C7, amended: with a preanalysis that changes nothing, `mii_sync` and `mii_build` make
the same calls (the preanalysis apart), leave the same state and return the same status
in every run in which the analysis does not succeed with a count of 0; when it does,
`mii_sync` makes no export and returns 0, while `mii_build` exports and returns -1
exactly when that export fails. -/
theorem mii_sync_eq_build_of_count {Ptr W : Type} (e : Env Ptr W) (index : Ptr) (w : W)
    (hpre : ∀ p w, (e.mii_modtable_preanalysis p w).2 = w) :
    ((∀ ev ∈ (mii_build e index ⟨w, []⟩).2.trace,
        ev.op = OpName.mii_modtable_analysis → ev.status = 0 → ev.out ≠ some 0) →
      (mii_sync e index ⟨w, []⟩).1 = (mii_build e index ⟨w, []⟩).1 ∧
      (mii_sync e index ⟨w, []⟩).2.world = (mii_build e index ⟨w, []⟩).2.world ∧
      withoutPreanalysis (mii_sync e index ⟨w, []⟩).2.trace
        = (mii_build e index ⟨w, []⟩).2.trace) ∧
    ((∃ ev ∈ (mii_build e index ⟨w, []⟩).2.trace,
        ev.op = OpName.mii_modtable_analysis ∧ ev.status = 0 ∧ ev.out = some 0) →
      (mii_sync e index ⟨w, []⟩).1 = 0 ∧
      (∀ ev ∈ (mii_sync e index ⟨w, []⟩).2.trace, ev.op ≠ OpName.mii_modtable_export) ∧
      (∃ ev ∈ (mii_build e index ⟨w, []⟩).2.trace, ev.op = OpName.mii_modtable_export) ∧
      ((mii_build e index ⟨w, []⟩).1 = -1 ↔
        ∃ ev ∈ (mii_build e index ⟨w, []⟩).2.trace,
          ev.op = OpName.mii_modtable_export ∧ ev.status ≠ 0)) := by
  generalize hb : mii_build e index ⟨w, []⟩ = b
  generalize hs : mii_sync e index ⟨w, []⟩ = s
  simp only [mii_build, mii_sync, St.call, St.callVoid, St.callOut, hpre] at hb hs
  generalize e.mii_modtable_init index w = w0 at hb hs
  generalize e.mii_analysis_init w0 = a at hb hs
  generalize e.mii_modtable_gen index a.2 = g at hb hs
  generalize e.mii_modtable_analysis index g.2 = an at hb hs
  generalize e.mii_modtable_export index an.2 = ex at hb hs
  split_ifs at hb hs <;> subst hb hs <;> simp_all [withoutPreanalysis]

theorem mii_sync_eq_build_of_count_witness :
    ((∀ p w, ((stubEnv 0 2 0).mii_modtable_preanalysis p w).2 = w) ∧
      (∀ ev ∈ (mii_build (stubEnv 0 2 0) () ⟨(), []⟩).2.trace,
        ev.op = OpName.mii_modtable_analysis → ev.status = 0 → ev.out ≠ some 0) ∧
      (mii_sync (stubEnv 0 2 0) () ⟨(), []⟩).1 = (mii_build (stubEnv 0 2 0) () ⟨(), []⟩).1 ∧
      withoutPreanalysis (mii_sync (stubEnv 0 2 0) () ⟨(), []⟩).2.trace
        = (mii_build (stubEnv 0 2 0) () ⟨(), []⟩).2.trace) ∧
    ((∃ ev ∈ (mii_build (stubEnv 0 0 1) () ⟨(), []⟩).2.trace,
        ev.op = OpName.mii_modtable_analysis ∧ ev.status = 0 ∧ ev.out = some 0) ∧
      (mii_sync (stubEnv 0 0 1) () ⟨(), []⟩).1 = 0 ∧
      (∀ ev ∈ (mii_sync (stubEnv 0 0 1) () ⟨(), []⟩).2.trace,
        ev.op ≠ OpName.mii_modtable_export)) :=
  have h1 := (mii_sync_eq_build_of_count (stubEnv 0 2 0) () () (fun _ _ => rfl)).1 (by decide)
  have h2 := (mii_sync_eq_build_of_count (stubEnv 0 0 1) () () (fun _ _ => rfl)).2 (by decide)
  ⟨⟨fun _ _ => rfl, by decide, h1.1, h1.2.2⟩, ⟨by decide, h2.1, h2.2.1⟩⟩

/-- C8: a failure of `mii_modtable_preanalysis` never aborts `mii_sync`. Whatever the
other operations do: `mii_sync` returns 0 or -1; it returns -1 only when one of
`mii_analysis_init`, `mii_modtable_gen`, `mii_modtable_analysis`, `mii_modtable_export`
has returned an error; every call of the preanalysis, failed or not, is followed at once
by the call of `mii_modtable_analysis` on the same index; and the status and the final
state of `mii_sync` do not depend on the status the preanalysis returns. -/
theorem mii_sync_preanalysis_failure {Ptr W : Type} (e : Env Ptr W) (index : Ptr) (w : W) :
    ((mii_sync e index ⟨w, []⟩).1 = 0 ∨ (mii_sync e index ⟨w, []⟩).1 = -1) ∧
    ((mii_sync e index ⟨w, []⟩).1 = -1 →
      ∃ ev ∈ (mii_sync e index ⟨w, []⟩).2.trace,
        (ev.op = OpName.mii_analysis_init ∨ ev.op = OpName.mii_modtable_gen ∨
          ev.op = OpName.mii_modtable_analysis ∨ ev.op = OpName.mii_modtable_export) ∧
        ev.status ≠ 0) ∧
    (∀ ev ∈ (mii_sync e index ⟨w, []⟩).2.trace, ev.op = OpName.mii_modtable_preanalysis →
      ∃ a, [ev, a] <:+: (mii_sync e index ⟨w, []⟩).2.trace ∧
        a.op = OpName.mii_modtable_analysis ∧ a.index = ev.index) ∧
    (∀ f : Ptr → W → Int,
      (mii_sync { e with mii_modtable_preanalysis :=
          fun p v => (f p v, (e.mii_modtable_preanalysis p v).2) } index ⟨w, []⟩).1
        = (mii_sync e index ⟨w, []⟩).1 ∧
      (mii_sync { e with mii_modtable_preanalysis :=
          fun p v => (f p v, (e.mii_modtable_preanalysis p v).2) } index ⟨w, []⟩).2.world
        = (mii_sync e index ⟨w, []⟩).2.world) := by
  have hd : ∀ f : Ptr → W → Int,
      (mii_sync { e with mii_modtable_preanalysis :=
          fun p v => (f p v, (e.mii_modtable_preanalysis p v).2) } index ⟨w, []⟩).1
        = (mii_sync e index ⟨w, []⟩).1 ∧
      (mii_sync { e with mii_modtable_preanalysis :=
          fun p v => (f p v, (e.mii_modtable_preanalysis p v).2) } index ⟨w, []⟩).2.world
        = (mii_sync e index ⟨w, []⟩).2.world := by
    intro f
    generalize hs' : mii_sync { e with mii_modtable_preanalysis :=
          fun p v => (f p v, (e.mii_modtable_preanalysis p v).2) } index ⟨w, []⟩ = s'
    generalize hs : mii_sync e index ⟨w, []⟩ = s
    simp only [mii_sync, St.call, St.callVoid, St.callOut] at hs hs'
    generalize e.mii_modtable_init index w = w0 at hs hs'
    generalize e.mii_analysis_init w0 = a at hs hs'
    generalize e.mii_modtable_gen index a.2 = g at hs hs'
    generalize e.mii_modtable_preanalysis index g.2 = p at hs hs'
    generalize e.mii_modtable_analysis index p.2 = an at hs hs'
    generalize e.mii_modtable_export index an.2 = ex at hs hs'
    split_ifs at hs hs' <;> subst hs hs' <;> exact ⟨rfl, rfl⟩
  refine ⟨?_, ?_, ?_, hd⟩
  all_goals
    generalize hs : mii_sync e index ⟨w, []⟩ = s
    simp only [mii_sync, St.call, St.callVoid, St.callOut] at hs
    generalize e.mii_modtable_init index w = w0 at hs
    generalize e.mii_analysis_init w0 = a at hs
    generalize e.mii_modtable_gen index a.2 = g at hs
    generalize e.mii_modtable_preanalysis index g.2 = p at hs
    generalize e.mii_modtable_analysis index p.2 = an at hs
    generalize e.mii_modtable_export index an.2 = ex at hs
    split_ifs at hs <;> subst hs <;> simp_all [List.IsInfix]
  all_goals exact ⟨_, ⟨[_, _, _], _, rfl⟩, rfl, rfl⟩

theorem mii_sync_preanalysis_failure_witness :
    ((mii_sync (stubEnv 1 2 1) () ⟨(), []⟩).1 = -1 ∧
      ∃ ev ∈ (mii_sync (stubEnv 1 2 1) () ⟨(), []⟩).2.trace,
        (ev.op = OpName.mii_analysis_init ∨ ev.op = OpName.mii_modtable_gen ∨
          ev.op = OpName.mii_modtable_analysis ∨ ev.op = OpName.mii_modtable_export) ∧
        ev.status ≠ 0) ∧
    ((⟨OpName.mii_modtable_preanalysis, some (), 1, none⟩ : Event Unit)
        ∈ (mii_sync (stubEnv 1 2 0) () ⟨(), []⟩).2.trace ∧
      (mii_sync (stubEnv 1 2 0) () ⟨(), []⟩).1 = 0 ∧
      ∃ a, [(⟨OpName.mii_modtable_preanalysis, some (), 1, none⟩ : Event Unit), a]
          <:+: (mii_sync (stubEnv 1 2 0) () ⟨(), []⟩).2.trace ∧
        a.op = OpName.mii_modtable_analysis ∧ a.index = some ()) :=
  ⟨⟨by decide, (mii_sync_preanalysis_failure (stubEnv 1 2 1) () ()).2.1 (by decide)⟩,
    ⟨by decide, by decide,
      (mii_sync_preanalysis_failure (stubEnv 1 2 0) () ()).2.2.1 _ (by decide) rfl⟩⟩

/-- C9: each of `mii_search_exact`, `mii_search_fuzzy` and `mii_search_info` meets the
search contract: a failed import of the index file is followed by a full `mii_build` and
a second import instead of an immediate failure; the function returns 0 if and only if
an import has succeeded (the first, or the second after a successful build) and its
`mii_modtable_search_*` operation succeeds; and it calls that operation, once, exactly
when an import has succeeded. -/
theorem mii_search_import_fallback {Ptr W : Type} (e : Env Ptr W) :
    SearchContract e OpName.mii_modtable_search_exact e.mii_modtable_search_exact
        (mii_search_exact e) ∧
      SearchContract e OpName.mii_modtable_search_similar e.mii_modtable_search_similar
        (mii_search_fuzzy e) ∧
      SearchContract e OpName.mii_modtable_search_info e.mii_modtable_search_info
        (mii_search_info e) :=
  ⟨searchWith_contract e _ _ (Or.inl rfl),
    searchWith_contract e _ _ (Or.inr (Or.inl rfl)),
    searchWith_contract e _ _ (Or.inr (Or.inr rfl))⟩

theorem mii_search_import_fallback_witness :
    (cacheEnv.mii_modtable_import () (cacheEnv.mii_modtable_init () false)).1 ≠ 0 ∧
      (mii_search_exact cacheEnv () () () (cstr "gcc") ⟨false, []⟩).1 = 0 ∧
      ((mii_search_exact cacheEnv () () () (cstr "gcc") ⟨false, []⟩).2.trace.filter
        (fun ev => decide (ev.op = OpName.mii_modtable_search_exact))).length = 1 :=
  have h := (mii_search_import_fallback cacheEnv).1 () () () (cstr "gcc") false
  ⟨by decide, h.1.mpr ⟨Or.inr ⟨by decide, by decide⟩, by decide⟩, h.2.1.trans (by decide)⟩

/-! ## The analyzer (`analysis.c`) -/

/-- C10: for either dialect (`MII_MODTABLE_MODTYPE_LMOD` or `MII_MODTABLE_MODTYPE_TCL`),
in either build configuration, `mii_analysis_run` fails, with status -1, when the
modulefile cannot be opened for reading, and it leaves the command list, its count, the
module-path list and its count as the caller passed them. -/
theorem mii_analysis_run_unreadable {File Lua : Type} (env : AnalysisEnv File Lua)
    (modfile : CString) (modtype : Int) (out : AnalysisOut) (sys : AnalysisSys Lua)
    (hdialect : modtype = MII_MODTABLE_MODTYPE_LMOD ∨ modtype = MII_MODTABLE_MODTYPE_TCL)
    (hopen : env.fopen modfile = none) :
    ∃ r, mii_analysis_run env modfile modtype out sys = .ok r ∧
      r.1 = -1 ∧ r.1 ≠ 0 ∧ r.2.1 = out ∧ r.2.2 = sys := by
  have hne : (-1 : Int) ≠ 0 := by decide
  refine ⟨((-1 : Int), out, sys), ?_, rfl, hne, rfl, rfl⟩
  rcases hdialect with rfl | rfl
  · simp [mii_analysis_run, _mii_analysis_lmod, hopen]
  · simp [mii_analysis_run, _mii_analysis_tcl, hopen, MII_MODTABLE_MODTYPE_TCL,
      MII_MODTABLE_MODTYPE_LMOD]

theorem mii_analysis_run_unreadable_witness :
    (MII_MODTABLE_MODTYPE_TCL = MII_MODTABLE_MODTYPE_LMOD ∨
        MII_MODTABLE_MODTYPE_TCL = MII_MODTABLE_MODTYPE_TCL) ∧
      unreadableEnv.fopen (cstr "/opt/modules/gcc/9.3.0") = none ∧
      ∃ r, mii_analysis_run unreadableEnv (cstr "/opt/modules/gcc/9.3.0")
          MII_MODTABLE_MODTYPE_TCL ⟨[cstr "ls"], 1, [], 0⟩ ⟨(), []⟩ = .ok r ∧
        r.1 = -1 ∧ r.1 ≠ 0 ∧ r.2.1 = ⟨[cstr "ls"], 1, [], 0⟩ ∧ r.2.2 = ⟨(), []⟩ :=
  ⟨Or.inr rfl, rfl,
    mii_analysis_run_unreadable unreadableEnv (cstr "/opt/modules/gcc/9.3.0")
      MII_MODTABLE_MODTYPE_TCL ⟨[cstr "ls"], 1, [], 0⟩ ⟨(), []⟩ (Or.inr rfl) rfl⟩

/-! ## The matrix implementation and the recurrence -/

/-- C11, as stated, fails: on two strings of 65535 bytes the table would have 2^32 cells;
the product overflows `int`, which is undefined in C: the call has no defined result,
so not the value of the recurrence, and there is no table of that size for its reads to
lie in, even on a machine where `malloc` does not fail. -/
theorem mii_levenshtein_distance_refines_osa_overflow :
    mii_levenshtein_distance (List.replicate 65535 97) (List.replicate 65535 97) = none ∧
    mii_levenshtein_distance_traced (fun _ => true)
      (List.replicate 65535 97) (List.replicate 65535 97) = none ∧
    mii_levenshtein_distance (List.replicate 65535 97) (List.replicate 65535 97)
      ≠ some (osaRec (List.replicate 65535 97) (List.replicate 65535 97)
          (List.replicate 65535 97).length (List.replicate 65535 97).length) := by
  have h : mii_levenshtein_distance (List.replicate 65535 97) (List.replicate 65535 97)
      = none := mii_levenshtein_distance_on_replicate _ _ _ _ _ (by decide)
  refine ⟨h, mii_levenshtein_distance_traced_replicate _ _ _ _ _ (by decide), ?_⟩
  rw [h]
  exact fun hc => Option.noConfusion hc

/-- C11, amended: the matrix implementation of `mii_levenshtein_distance` computes the
optimal-string-alignment recurrence on the lowercased strings, for all strings `a` and
`b` whose table fits (its `(|a|+1) * (|b|+1)` cells are at most `INT_MAX` and `malloc`
grants them). The recurrence has a table (`osaRec`); for every table `d` of it, the
function then returns `d(|a|, |b|)`; for an empty string it returns the length of the
other one; and the run on the recorded matrix returns the same value, every cell it
reads lying inside the `(|a|+1) x (|b|+1)` table and having been written before
(`ReadsInTable`). -/
theorem mii_levenshtein_distance_refines_osa (malloc : Nat → Bool) (a b : CString) :
    OsaRecurrence (a.map tolower) (b.map tolower) (osaRec a b) ∧
    (∀ d, OsaRecurrence (a.map tolower) (b.map tolower) d → TableFits malloc a b →
      mii_levenshtein_distance_on malloc a b = some (d a.length b.length) ∧
      ∃ reads, mii_levenshtein_distance_traced malloc a b
          = some (d a.length b.length, reads) ∧
        ReadsInTable a b reads) ∧
    (a = [] → TableFits malloc a b →
      mii_levenshtein_distance_on malloc a b = some b.length) ∧
    (b = [] → TableFits malloc a b →
      mii_levenshtein_distance_on malloc a b = some a.length) := by
  refine ⟨osaRec_isRecurrence a b, ?_, ?_, ?_⟩
  · intro d hd hfit
    rw [osaRec_unique a b d hd _ a.length b.length rfl (Nat.le_refl _) (Nat.le_refl _)]
    exact ⟨mii_levenshtein_distance_on_eq_osaRec malloc a b hfit,
      mii_levenshtein_distance_traced_spec malloc a b hfit⟩
  · intro ha hfit
    rw [mii_levenshtein_distance_on_eq_osaRec malloc a b hfit, ha]
    simp [osaRec_zero_left]
  · intro hb hfit
    rw [mii_levenshtein_distance_on_eq_osaRec malloc a b hfit, hb]
    simp [osaRec_zero_right]

theorem mii_levenshtein_distance_refines_osa_witness :
    (OsaRecurrence ((cstr "gcc").map tolower) ((cstr "gco").map tolower)
        (osaRec (cstr "gcc") (cstr "gco")) ∧
      TableFits (fun _ => true) (cstr "gcc") (cstr "gco") ∧
      mii_levenshtein_distance_on (fun _ => true) (cstr "gcc") (cstr "gco")
        = some (osaRec (cstr "gcc") (cstr "gco") (cstr "gcc").length (cstr "gco").length)) ∧
    (cstr "" = [] ∧ TableFits (fun _ => true) (cstr "") (cstr "gcc") ∧
      mii_levenshtein_distance_on (fun _ => true) (cstr "") (cstr "gcc")
        = some (cstr "gcc").length) :=
  ⟨⟨(mii_levenshtein_distance_refines_osa (fun _ => true) (cstr "gcc") (cstr "gco")).1,
      ⟨by decide, rfl⟩,
      ((mii_levenshtein_distance_refines_osa (fun _ => true) (cstr "gcc") (cstr "gco")).2.1 _
        (mii_levenshtein_distance_refines_osa (fun _ => true) (cstr "gcc") (cstr "gco")).1
        ⟨by decide, rfl⟩).1⟩,
    ⟨rfl, ⟨by decide, rfl⟩,
      (mii_levenshtein_distance_refines_osa (fun _ => true) (cstr "") (cstr "gcc")).2.2.1 rfl
        ⟨by decide, rfl⟩⟩⟩

/-! ## The word expansion (`_mii_analysis_expand`) -/

/-- C12 fails on the code: for the expression `/opt/*/bin`, expanded to the two words
`/opt/a/bin` and `/opt/b/bin`, the copy of the second word (`memcpy` of `len + 1` = 21
bytes) reads beyond the 11 bytes of that word and, starting at the offset 10, writes
beyond the 21 bytes of the output; no concatenation is returned. An expansion to the
single word `/opt/a/bin` is copied within bounds and returned. -/
theorem mii_analysis_expand_overrun :
    globWordexp (cstr "/opt/*/bin") = some [cstr "/opt/a/bin", cstr "/opt/b/bin"] ∧
    _mii_analysis_expand globWordexp (cstr "/opt/*/bin")
      = .error { word := 1, count := 21, source := 11, offset := 10, allocated := 21 } ∧
    _mii_analysis_expand globWordexp (cstr "/opt/a/bin")
      = .ok (some (cstr "/opt/a/bin" ++ [0])) :=
  ⟨rfl, rfl, rfl⟩

end Mii
